import Mathlib

/-!
Verification of the coalescing embedding cache
(`chroma/embeddings/cached/embeddings_generator.go`) of the chroma-go
repository.

The component wraps an `EmbeddingGenerator` and memoizes its results:
`Generate` resolves a list of documents against a cache, registers
per-call buffered response channels in a `waiting` map for documents
that are not cached, dispatches a batch of not-yet-in-flight documents
to a worker (`handleGen`), and collects one result per input position.

Shallow embedding conventions:
- `chroma.Document` is a string alias in the source; `chroma.Embedding`
  is `[]float64`.  The cache never inspects embedding values
  numerically, so the float entries are modelled as integers.
- Go maps become functions into `Option`; a nil slice becomes `none`
  (for `res.embedding`) or the empty list.
- Each lock-protected section (`requestEmbeddings`'s body,
  `handleGen`'s body after the generator call) is one atomic step of
  the concurrent model.
- Channels are identified by allocation order (`Nat`); a channel's
  buffer is the list of messages sent to it.  A Go index-out-of-range
  panic is modelled by `Option.none`.
-/

namespace ChromaGo.Cached

/-- Go type `chroma.Document`, a string alias. -/
abbrev Document := String

/-- Go type `chroma.Embedding` (`[]float64`).  The cached generator treats
embedding values as opaque data, so the entries are modelled as integers. -/
abbrev Embedding := List Int

/-- Errors flowing through the component.  `err` is an error produced by the
wrapped generator; the two wrappers correspond to the `fmt.Errorf` wrapping
at the send site in `handleGen` and at the receive site in `Generate`. -/
inductive GenError : Type where
  | err (msg : String)
  | wrapGenerating (e : GenError)
  | wrapGetting (e : GenError)
deriving DecidableEq, Repr

/-- Go struct `res`: the message sent on a waiter's channel.  A nil embedding
slice is `none`. -/
structure Res where
  embedding : Option Embedding
  err : Option GenError
deriving DecidableEq, Repr

/-- Field `cache map[chroma.Document]chroma.Embedding`. -/
abbrev Cache := Document → Option Embedding

/-- Field `waiting map[chroma.Document][]chan res`; channels are identified
by their allocation index. -/
abbrev Waiting := Document → Option (List Nat)

/-- Channel buffers: for each channel id, the list of messages sent to it. -/
abbrev Chans := Nat → List Res

/-- Result of one call to the wrapped generator: `(embeddings, err)` as
returned by `generator.Generate`. -/
abbrev GenResult := List Embedding × Option GenError

/-- Map update: `m[k] = v`. -/
def mapSet (m : Document → Option α) (k : Document) (v : α) :
    Document → Option α :=
  fun d => if d = k then some v else m d

/-- Map deletion: `delete(m, k)`. -/
def mapDel (m : Document → Option α) (k : Document) : Document → Option α :=
  fun d => if d = k then none else m d

/-- Go `c.waiting[doc] = append(c.waiting[doc], ch)`: indexing a missing key
yields the nil slice, so the append starts from the empty list. -/
def waitAppend (w : Waiting) (doc : Document) (ci : Nat) : Waiting :=
  mapSet w doc ((w doc).getD [] ++ [ci])

/-- Send one message on a channel (append to its buffer). -/
def chanSend (ch : Chans) (ci : Nat) (r : Res) : Chans :=
  fun j => if j = ci then ch j ++ [r] else ch j

/-- Send the same message to every channel of a list, in order
(the inner `for _, ch := range c.waiting[doc]` loop of `handleGen`). -/
def sendAll (ch : Chans) (cis : List Nat) (r : Res) : Chans :=
  cis.foldl (fun acc ci => chanSend acc ci r) ch

/-- Shared state of a `CachedEmbeddingsGenerator` plus the dispatched
generation requests that the `run` loop has not yet handled. -/
structure CState where
  cache : Cache
  waiting : Waiting
  chans : Chans
  nextChan : Nat
  pending : List (List Document)

/-- State of a freshly constructed generator (`NewEmbeddingsGenerator`):
empty cache, empty waiting map, no channels allocated, nothing dispatched. -/
def initState : CState :=
  { cache := fun _ => none
    waiting := fun _ => none
    chans := fun _ => []
    nextChan := 0
    pending := [] }

/-- The per-document loop of `requestEmbeddings` (source lines 84-100),
iterating over the input documents paired with their freshly allocated
channel ids.  It threads the waiting map, the channel buffers and the
`docsToGenerate` accumulator; the cache is only read. -/
def reqLoop (cache : Cache) :
    List (Nat × Document) → Waiting → Chans → List Document →
    Waiting × Chans × List Document
  | [], w, ch, dtg => (w, ch, dtg)
  | (ci, doc) :: rest, w, ch, dtg =>
    match cache doc with
    | some e =>
      reqLoop cache rest w (chanSend ch ci { embedding := some e, err := none }) dtg
    | none =>
      let dtg' := match w doc with
        | none => dtg ++ [doc]
        | some _ => dtg
      reqLoop cache rest (waitAppend w doc ci) ch dtg'

/-- Result of `requestEmbeddings`: the per-position channel ids returned to
the caller, the dispatched `docsToGenerate` batch, and the updated state. -/
structure ReqOut where
  chanIds : List Nat
  batch : List Document
  state : CState

/-- Embedding of `requestEmbeddings` (source lines 66-114): allocate one
buffered channel per input document, run the per-document loop, and
dispatch the non-empty batch of documents to generate.  The whole body
runs under the mutex, hence is one atomic step. -/
def requestEmbeddings (st : CState) (docs : List Document) : ReqOut :=
  let ids := List.range' st.nextChan docs.length
  let out := reqLoop st.cache (ids.zip docs) st.waiting st.chans []
  { chanIds := ids
    batch := out.2.2
    state :=
      { cache := st.cache
        waiting := out.1
        chans := out.2.1
        nextChan := st.nextChan + docs.length
        pending := if out.2.2.isEmpty then st.pending else st.pending ++ [out.2.2] } }

/-- The loop of `handleGen` (source lines 126-144) over the batch documents.
Go evaluates `embeddings[i]` before looking at the error, so an index out
of range (the generator errored and returned a short or nil embeddings
slice) panics: modelled by `none`. -/
def handleGenLoop (embeddings : List Embedding) (err : Option GenError) :
    List Document → Nat → Cache → Waiting → Chans →
    Option (Cache × Waiting × Chans)
  | [], _, c, w, ch => some (c, w, ch)
  | doc :: rest, i, c, w, ch =>
    match embeddings[i]? with
    | none => none
    | some e =>
      let c' := mapSet c doc e
      match w doc with
      | none => handleGenLoop embeddings err rest (i + 1) c' w ch
      | some cis =>
        let msg : Res := match err with
          | some er => { embedding := none, err := some (GenError.wrapGenerating er) }
          | none => { embedding := some e, err := none }
        handleGenLoop embeddings err rest (i + 1) c' (mapDel w doc) (sendAll ch cis msg)

/-- Embedding of `handleGen` (source lines 116-145): call the wrapped
generator on the batch, then, under the mutex, write each embedding into
the cache and notify that document's waiters.  `none` models the panic on
`embeddings[i]` when the generator returned fewer embeddings than batch
documents. -/
def handleGen (g : List Document → GenResult) (batch : List Document)
    (st : CState) : Option CState :=
  let r := g batch
  match handleGenLoop r.1 r.2 batch 0 st.cache st.waiting st.chans with
  | none => none
  | some out =>
    some { st with cache := out.1, waiting := out.2.1, chans := out.2.2 }

/-- The collection loop of `Generate` (source lines 53-61): receive from each
per-position channel in order; the first error message aborts the call with
that error wrapped.  A receive on a channel nobody will ever send on blocks
forever: modelled by `none`.  Go stores `r.embedding` directly, so a nil
embedding under a nil error would be stored as the nil slice (`getD []`). -/
def collectLoop (ch : Chans) :
    List Nat → List Embedding → Option (Except GenError (List Embedding))
  | [], acc => some (Except.ok acc)
  | ci :: rest, acc =>
    match (ch ci).head? with
    | none => none
    | some r =>
      match r.err with
      | some e => some (Except.error (GenError.wrapGetting e))
      | none => collectLoop ch rest (acc ++ [r.embedding.getD []])

/-- Embedding of one complete `Generate` call (source lines 50-64) in the
only schedule available to a single sequential caller: `requestEmbeddings`,
then — since the collection loop blocks until the dispatched batch is
handled — `handleGen` on that batch, then the collection loop.  Returns the
call's result together with the state after the call; `none` models a panic
of the dispatch worker or a forever-blocked receive. -/
def Generate (g : List Document → GenResult) (st : CState)
    (docs : List Document) :
    Option (Except GenError (List Embedding) × CState) :=
  let r := requestEmbeddings st docs
  let st2? : Option CState :=
    if r.batch.isEmpty then some r.state
    else handleGen g r.batch { r.state with pending := st.pending }
  match st2? with
  | none => none
  | some st2 =>
    match collectLoop st2.chans r.chanIds [] with
    | none => none
    | some out => some (out, st2)

/-- Pointwise successful generator built from a per-document function:
returns one embedding per document, positionally aligned, and no error. -/
def gOf (h : Document → Embedding) : List Document → GenResult :=
  fun ds => (ds.map h, none)

/-- The toy generator of the spec's concrete scenario:
`generate(keys) = [len(k) for k in keys]` (a one-entry vector stands for
the number). -/
def gLen : List Document → GenResult :=
  gOf (fun d => [(d.length : Int)])

/-- A generator that fails for every batch, returning the conventional
`(nil, err)` pair. -/
def gFail (msg : String) : List Document → GenResult :=
  fun _ => ([], some (GenError.err msg))

/-! ### Basic lemmas about the map and channel primitives -/

theorem mapSet_eq (m : Document → Option α) (k : Document) (v : α) :
    mapSet m k v k = some v := by
  simp [mapSet]

theorem mapSet_ne (m : Document → Option α) {k d : Document} (v : α)
    (h : d ≠ k) : mapSet m k v d = m d := by
  simp [mapSet, h]

theorem mapDel_eq (m : Document → Option α) (k : Document) :
    mapDel m k k = none := by
  simp [mapDel]

theorem mapDel_ne (m : Document → Option α) {k d : Document} (h : d ≠ k) :
    mapDel m k d = m d := by
  simp [mapDel, h]

theorem chanSend_eq (ch : Chans) (ci : Nat) (r : Res) :
    chanSend ch ci r ci = ch ci ++ [r] := by
  simp [chanSend]

theorem chanSend_ne (ch : Chans) {ci j : Nat} (r : Res) (h : j ≠ ci) :
    chanSend ch ci r j = ch j := by
  simp [chanSend, h]

theorem sendAll_not_mem (r : Res) :
    ∀ (cis : List Nat) (ch : Chans) (j : Nat), j ∉ cis →
      sendAll ch cis r j = ch j := by
  intro cis
  induction cis with
  | nil => intro ch j _; rfl
  | cons c0 rest ih =>
    intro ch j hj
    have hne : j ≠ c0 := fun h => hj (h ▸ List.mem_cons_self c0 rest)
    have hrest : j ∉ rest := fun h => hj (List.mem_cons_of_mem c0 h)
    have step : sendAll ch (c0 :: rest) r j = sendAll (chanSend ch c0 r) rest r j := by
      simp [sendAll, List.foldl_cons]
    rw [step, ih (chanSend ch c0 r) j hrest, chanSend_ne ch r hne]

theorem sendAll_nodup_mem (r : Res) :
    ∀ (cis : List Nat) (ch : Chans) (j : Nat), cis.Nodup → j ∈ cis →
      sendAll ch cis r j = ch j ++ [r] := by
  intro cis
  induction cis with
  | nil => intro ch j _ hj; cases hj
  | cons c0 rest ih =>
    intro ch j hnd hj
    have step : sendAll ch (c0 :: rest) r j = sendAll (chanSend ch c0 r) rest r j := by
      simp [sendAll, List.foldl_cons]
    rcases List.mem_cons.mp hj with rfl | hmem
    · have hnot : j ∉ rest := (List.nodup_cons.mp hnd).1
      rw [step, sendAll_not_mem r rest (chanSend ch j r) j hnot, chanSend_eq]
    · have hne : j ≠ c0 := by
        intro h; exact (List.nodup_cons.mp hnd).1 (h ▸ hmem)
      rw [step, ih (chanSend ch c0 r) j (List.nodup_cons.mp hnd).2 hmem,
        chanSend_ne ch r hne]

/-! ### Lemmas about the per-document loop of requestEmbeddings -/

theorem reqLoop_waiting_of_cached (cache : Cache) :
    ∀ (pairs : List (Nat × Document)) (w : Waiting) (ch : Chans)
      (dtg : List Document) (d : Document), cache d ≠ none →
      (reqLoop cache pairs w ch dtg).1 d = w d := by
  intro pairs
  induction pairs with
  | nil => intro w ch dtg d _; rfl
  | cons p rest ih =>
    intro w ch dtg d hd
    obtain ⟨ci, doc⟩ := p
    cases hcd : cache doc with
    | some e => simpa [reqLoop, hcd] using ih _ _ _ d hd
    | none =>
      have hne : d ≠ doc := fun h => hd (h ▸ hcd)
      have : waitAppend w doc ci d = w d := by
        simp [waitAppend, mapSet_ne _ _ hne]
      cases hwd : w doc with
      | none => simpa [reqLoop, hcd, hwd] using (ih _ _ _ d hd).trans this
      | some l => simpa [reqLoop, hcd, hwd] using (ih _ _ _ d hd).trans this

theorem reqLoop_waiting_mem_mono (cache : Cache) :
    ∀ (pairs : List (Nat × Document)) (w : Waiting) (ch : Chans)
      (dtg : List Document) (d : Document) (l : List Nat) (ci : Nat),
      w d = some l → ci ∈ l →
      ∃ l2, (reqLoop cache pairs w ch dtg).1 d = some l2 ∧ ci ∈ l2 := by
  intro pairs
  induction pairs with
  | nil => intro w ch dtg d l ci hw hci; exact ⟨l, hw, hci⟩
  | cons p rest ih =>
    intro w ch dtg d l ci hw hci
    obtain ⟨cj, doc⟩ := p
    cases hcd : cache doc with
    | some e => simpa [reqLoop, hcd] using ih _ _ _ d l ci hw hci
    | none =>
      have hmem : ∃ l1, waitAppend w doc cj d = some l1 ∧ ci ∈ l1 := by
        by_cases hne : d = doc
        · subst hne
          refine ⟨(w d).getD [] ++ [cj], by simp [waitAppend, mapSet_eq], ?_⟩
          rw [hw]; exact List.mem_append_left _ hci
        · exact ⟨l, by simp [waitAppend, mapSet_ne _ _ hne, hw], hci⟩
      obtain ⟨l1, hl1, hcil1⟩ := hmem
      cases hwd : w doc with
      | none => simpa [reqLoop, hcd, hwd] using ih _ _ _ d l1 ci hl1 hcil1
      | some l0 => simpa [reqLoop, hcd, hwd] using ih _ _ _ d l1 ci hl1 hcil1

theorem reqLoop_waiting_grow (cache : Cache) :
    ∀ (pairs : List (Nat × Document)) (w : Waiting) (ch : Chans)
      (dtg : List Document) (d : Document), w d ≠ none →
      (reqLoop cache pairs w ch dtg).1 d ≠ none := by
  intro pairs
  induction pairs with
  | nil => intro w ch dtg d hd; exact hd
  | cons p rest ih =>
    intro w ch dtg d hd
    obtain ⟨cj, doc⟩ := p
    cases hcd : cache doc with
    | some e => simpa [reqLoop, hcd] using ih _ _ _ d hd
    | none =>
      have hgrow : waitAppend w doc cj d ≠ none := by
        by_cases hne : d = doc
        · subst hne; simp [waitAppend, mapSet_eq]
        · simpa [waitAppend, mapSet_ne _ _ hne] using hd
      cases hwd : w doc with
      | none => simpa [reqLoop, hcd, hwd] using ih _ _ _ d hgrow
      | some l0 => simpa [reqLoop, hcd, hwd] using ih _ _ _ d hgrow

theorem reqLoop_dtg_mono (cache : Cache) :
    ∀ (pairs : List (Nat × Document)) (w : Waiting) (ch : Chans)
      (dtg : List Document) (d : Document), d ∈ dtg →
      d ∈ (reqLoop cache pairs w ch dtg).2.2 := by
  intro pairs
  induction pairs with
  | nil => intro w ch dtg d hd; exact hd
  | cons p rest ih =>
    intro w ch dtg d hd
    obtain ⟨cj, doc⟩ := p
    cases hcd : cache doc with
    | some e => simpa [reqLoop, hcd] using ih _ _ _ d hd
    | none =>
      cases hwd : w doc with
      | none =>
        simpa [reqLoop, hcd, hwd] using ih _ _ _ d (List.mem_append_left _ hd)
      | some l0 => simpa [reqLoop, hcd, hwd] using ih _ _ _ d hd

theorem reqLoop_dtg_of_waiting (cache : Cache) :
    ∀ (pairs : List (Nat × Document)) (w : Waiting) (ch : Chans)
      (dtg : List Document) (d : Document), w d ≠ none →
      (d ∈ (reqLoop cache pairs w ch dtg).2.2 ↔ d ∈ dtg) := by
  intro pairs
  induction pairs with
  | nil => intro w ch dtg d _; exact Iff.rfl
  | cons p rest ih =>
    intro w ch dtg d hd
    obtain ⟨cj, doc⟩ := p
    have hgrow : waitAppend w doc cj d ≠ none := by
      by_cases hne : d = doc
      · subst hne; simp [waitAppend, mapSet_eq]
      · simpa [waitAppend, mapSet_ne _ _ hne] using hd
    cases hcd : cache doc with
    | some e => simpa [reqLoop, hcd] using ih _ _ _ d hd
    | none =>
      cases hwd : w doc with
      | none =>
        have hne : d ≠ doc := fun h => hd (h ▸ hwd)
        have := ih (waitAppend w doc cj) ch (dtg ++ [doc]) d hgrow
        simpa [reqLoop, hcd, hwd, List.mem_append, hne] using this
      | some l0 => simpa [reqLoop, hcd, hwd] using ih _ _ _ d hgrow

theorem reqLoop_dtg_uncached (cache : Cache) :
    ∀ (pairs : List (Nat × Document)) (w : Waiting) (ch : Chans)
      (dtg : List Document) (d : Document),
      d ∈ (reqLoop cache pairs w ch dtg).2.2 → d ∈ dtg ∨ cache d = none := by
  intro pairs
  induction pairs with
  | nil => intro w ch dtg d hd; exact Or.inl hd
  | cons p rest ih =>
    intro w ch dtg d hd
    obtain ⟨cj, doc⟩ := p
    cases hcd : cache doc with
    | some e =>
      exact ih _ _ _ d (by simpa [reqLoop, hcd] using hd)
    | none =>
      cases hwd : w doc with
      | none =>
        rcases ih _ _ _ d (by simpa [reqLoop, hcd, hwd] using hd) with hmem | hun
        · rcases List.mem_append.mp hmem with h | h
          · exact Or.inl h
          · rcases List.mem_singleton.mp h with rfl
            exact Or.inr hcd
        · exact Or.inr hun
      | some l0 =>
        exact ih _ _ _ d (by simpa [reqLoop, hcd, hwd] using hd)

theorem reqLoop_dtg_nodup (cache : Cache) :
    ∀ (pairs : List (Nat × Document)) (w : Waiting) (ch : Chans)
      (dtg : List Document), (∀ d ∈ dtg, w d ≠ none) → dtg.Nodup →
      (reqLoop cache pairs w ch dtg).2.2.Nodup ∧
        ∀ d ∈ (reqLoop cache pairs w ch dtg).2.2,
          (reqLoop cache pairs w ch dtg).1 d ≠ none := by
  intro pairs
  induction pairs with
  | nil => intro w ch dtg hw hnd; exact ⟨hnd, hw⟩
  | cons p rest ih =>
    intro w ch dtg hw hnd
    obtain ⟨cj, doc⟩ := p
    cases hcd : cache doc with
    | some e =>
      simpa [reqLoop, hcd] using ih w (chanSend ch cj ⟨some e, none⟩) dtg hw hnd
    | none =>
      cases hwd : w doc with
      | none =>
        have hdocnot : doc ∉ dtg := fun hmem => hw doc hmem hwd
        have hw1 : ∀ d ∈ dtg ++ [doc], waitAppend w doc cj d ≠ none := by
          intro d hd
          by_cases hne : d = doc
          · subst hne; simp [waitAppend, mapSet_eq]
          · rcases List.mem_append.mp hd with h | h
            · simpa [waitAppend, mapSet_ne _ _ hne] using hw d h
            · exact absurd (List.mem_singleton.mp h) hne
        have hnd1 : (dtg ++ [doc]).Nodup := by
          simpa [List.nodup_append] using ⟨hnd, hdocnot⟩
        simpa [reqLoop, hcd, hwd] using
          ih (waitAppend w doc cj) ch (dtg ++ [doc]) hw1 hnd1
      | some l0 =>
        have hw1 : ∀ d ∈ dtg, waitAppend w doc cj d ≠ none := by
          intro d hd
          by_cases hne : d = doc
          · subst hne; simp [waitAppend, mapSet_eq]
          · simpa [waitAppend, mapSet_ne _ _ hne] using hw d hd
        simpa [reqLoop, hcd, hwd] using ih (waitAppend w doc cj) ch dtg hw1 hnd

theorem reqLoop_sub_dtg (cache : Cache) :
    ∀ (pairs : List (Nat × Document)) (w : Waiting) (ch : Chans)
      (dtg : List Document) (d : Document),
      (reqLoop cache pairs w ch dtg).1 d ≠ none →
      w d ≠ none ∨ d ∈ (reqLoop cache pairs w ch dtg).2.2 := by
  intro pairs
  induction pairs with
  | nil => intro w ch dtg d hd; exact Or.inl hd
  | cons p rest ih =>
    intro w ch dtg d hd
    obtain ⟨cj, doc⟩ := p
    cases hcd : cache doc with
    | some e =>
      rcases ih _ _ _ d (by simpa [reqLoop, hcd] using hd) with h | h
      · exact Or.inl h
      · exact Or.inr (by simpa [reqLoop, hcd] using h)
    | none =>
      cases hwd : w doc with
      | none =>
        rcases ih _ _ _ d (by simpa [reqLoop, hcd, hwd] using hd) with h | h
        · by_cases hne : d = doc
          · subst hne
            refine Or.inr ?_
            have hdm : d ∈ dtg ++ [d] := List.mem_append_right _ (List.mem_singleton_self d)
            simpa [reqLoop, hcd, hwd] using
              reqLoop_dtg_mono cache rest (waitAppend w d cj) ch (dtg ++ [d]) d hdm
          · exact Or.inl (by simpa [waitAppend, mapSet_ne _ _ hne] using h)
        · exact Or.inr (by simpa [reqLoop, hcd, hwd] using h)
      | some l0 =>
        rcases ih _ _ _ d (by simpa [reqLoop, hcd, hwd] using hd) with h | h
        · by_cases hne : d = doc
          · subst hne; exact Or.inl (by simp [hwd])
          · exact Or.inl (by simpa [waitAppend, mapSet_ne _ _ hne] using h)
        · exact Or.inr (by simpa [reqLoop, hcd, hwd] using h)

theorem reqLoop_chans_not_mem (cache : Cache) :
    ∀ (pairs : List (Nat × Document)) (w : Waiting) (ch : Chans)
      (dtg : List Document) (j : Nat), (∀ p ∈ pairs, p.1 ≠ j) →
      (reqLoop cache pairs w ch dtg).2.1 j = ch j := by
  intro pairs
  induction pairs with
  | nil => intro w ch dtg j _; rfl
  | cons p rest ih =>
    intro w ch dtg j hj
    obtain ⟨cj, doc⟩ := p
    have hne : j ≠ cj := fun h => hj (cj, doc) (List.mem_cons_self _ _) h.symm
    have hrest : ∀ p ∈ rest, p.1 ≠ j := fun p hp => hj p (List.mem_cons_of_mem _ hp)
    cases hcd : cache doc with
    | some e =>
      have := ih w (chanSend ch cj ⟨some e, none⟩) dtg j hrest
      simpa [reqLoop, hcd, chanSend_ne ch _ hne] using this.trans (chanSend_ne ch _ hne)
    | none =>
      cases hwd : w doc with
      | none => simpa [reqLoop, hcd, hwd] using ih _ _ _ j hrest
      | some l0 => simpa [reqLoop, hcd, hwd] using ih _ _ _ j hrest

theorem reqLoop_chans_cached (cache : Cache) :
    ∀ (pairs : List (Nat × Document)) (w : Waiting) (ch : Chans)
      (dtg : List Document) (ci : Nat) (d : Document) (v : Embedding),
      (pairs.map Prod.fst).Nodup → (ci, d) ∈ pairs → cache d = some v →
      (reqLoop cache pairs w ch dtg).2.1 ci = ch ci ++ [⟨some v, none⟩] := by
  intro pairs
  induction pairs with
  | nil => intro w ch dtg ci d v _ hp _; cases hp
  | cons p rest ih =>
    intro w ch dtg ci d v hnd hp hv
    obtain ⟨cj, doc⟩ := p
    have hndrest : (rest.map Prod.fst).Nodup := (List.nodup_cons.mp (by simpa using hnd)).2
    have hheadnot : cj ∉ rest.map Prod.fst := (List.nodup_cons.mp (by simpa using hnd)).1
    rcases List.mem_cons.mp hp with heq | hmem
    · injection heq with h1 h2
      subst h1; subst h2
      have hrest : ∀ p ∈ rest, p.1 ≠ ci := by
        intro p hp' h
        exact hheadnot (h ▸ List.mem_map_of_mem Prod.fst hp')
      have := reqLoop_chans_not_mem cache rest w (chanSend ch ci ⟨some v, none⟩) dtg ci hrest
      simpa [reqLoop, hv] using this.trans (chanSend_eq ch ci _)
    · have hci : ci ∈ rest.map Prod.fst := List.mem_map_of_mem Prod.fst hmem
      have hne : ci ≠ cj := fun h => hheadnot (h ▸ hci)
      cases hcd : cache doc with
      | some e =>
        have := ih w (chanSend ch cj ⟨some e, none⟩) dtg ci d v hndrest hmem hv
        simpa [reqLoop, hcd, chanSend_ne ch _ hne] using this.trans
          (by rw [chanSend_ne ch _ hne])
      | none =>
        cases hwd : w doc with
        | none => simpa [reqLoop, hcd, hwd] using ih _ _ _ ci d v hndrest hmem hv
        | some l0 => simpa [reqLoop, hcd, hwd] using ih _ _ _ ci d v hndrest hmem hv

theorem reqLoop_chans_uncached (cache : Cache) :
    ∀ (pairs : List (Nat × Document)) (w : Waiting) (ch : Chans)
      (dtg : List Document) (ci : Nat) (d : Document),
      (pairs.map Prod.fst).Nodup → (ci, d) ∈ pairs → cache d = none →
      (reqLoop cache pairs w ch dtg).2.1 ci = ch ci := by
  intro pairs
  induction pairs with
  | nil => intro w ch dtg ci d _ hp _; cases hp
  | cons p rest ih =>
    intro w ch dtg ci d hnd hp hv
    obtain ⟨cj, doc⟩ := p
    have hndrest : (rest.map Prod.fst).Nodup := (List.nodup_cons.mp (by simpa using hnd)).2
    have hheadnot : cj ∉ rest.map Prod.fst := (List.nodup_cons.mp (by simpa using hnd)).1
    rcases List.mem_cons.mp hp with heq | hmem
    · injection heq with h1 h2
      subst h1; subst h2
      have hrest : ∀ p ∈ rest, p.1 ≠ ci := by
        intro p hp' h
        exact hheadnot (h ▸ List.mem_map_of_mem Prod.fst hp')
      cases hwd : w d with
      | none =>
        simpa [reqLoop, hv, hwd] using
          reqLoop_chans_not_mem cache rest (waitAppend w d ci) ch (dtg ++ [d]) ci hrest
      | some l0 =>
        simpa [reqLoop, hv, hwd] using
          reqLoop_chans_not_mem cache rest (waitAppend w d ci) ch dtg ci hrest
    · have hci : ci ∈ rest.map Prod.fst := List.mem_map_of_mem Prod.fst hmem
      have hne : ci ≠ cj := fun h => hheadnot (h ▸ hci)
      cases hcd : cache doc with
      | some e =>
        have := ih w (chanSend ch cj ⟨some e, none⟩) dtg ci d hndrest hmem hv
        simpa [reqLoop, hcd] using this.trans (chanSend_ne ch _ hne)
      | none =>
        cases hwd : w doc with
        | none => simpa [reqLoop, hcd, hwd] using ih _ _ _ ci d hndrest hmem hv
        | some l0 => simpa [reqLoop, hcd, hwd] using ih _ _ _ ci d hndrest hmem hv

theorem reqLoop_waiting_mem (cache : Cache) :
    ∀ (pairs : List (Nat × Document)) (w : Waiting) (ch : Chans)
      (dtg : List Document) (ci : Nat) (d : Document),
      (ci, d) ∈ pairs → cache d = none →
      ∃ l, (reqLoop cache pairs w ch dtg).1 d = some l ∧ ci ∈ l := by
  intro pairs
  induction pairs with
  | nil => intro w ch dtg ci d hp _; cases hp
  | cons p rest ih =>
    intro w ch dtg ci d hp hv
    obtain ⟨cj, doc⟩ := p
    rcases List.mem_cons.mp hp with heq | hmem
    · injection heq with h1 h2
      subst h1; subst h2
      have hadd : waitAppend w d ci d = some ((w d).getD [] ++ [ci]) := by
        simp [waitAppend, mapSet_eq]
      have hmemci : ci ∈ (w d).getD [] ++ [ci] :=
        List.mem_append_right _ (List.mem_singleton_self ci)
      cases hwd : w d with
      | none =>
        simpa [reqLoop, hv, hwd] using
          reqLoop_waiting_mem_mono cache rest (waitAppend w d ci) ch (dtg ++ [d]) d _ ci hadd hmemci
      | some l0 =>
        simpa [reqLoop, hv, hwd] using
          reqLoop_waiting_mem_mono cache rest (waitAppend w d ci) ch dtg d _ ci hadd hmemci
    · cases hcd : cache doc with
      | some e => simpa [reqLoop, hcd] using ih _ _ _ ci d hmem hv
      | none =>
        cases hwd : w doc with
        | none => simpa [reqLoop, hcd, hwd] using ih _ _ _ ci d hmem hv
        | some l0 => simpa [reqLoop, hcd, hwd] using ih _ _ _ ci d hmem hv

/-- Well-formedness of the waiting map relative to the channel allocation
counter `n`: every registered channel id was allocated (is `< n`), no list
registers the same channel twice, and no channel is registered under two
distinct documents.  These facts reflect that each response channel is
appended to the waiting map at most once, under its own document. -/
def WaitWF (w : Waiting) (n : Nat) : Prop :=
  (∀ d l, w d = some l → l.Nodup ∧ ∀ ci ∈ l, ci < n) ∧
  (∀ d1 d2 l1 l2, w d1 = some l1 → w d2 = some l2 →
    ∀ ci, ci ∈ l1 → ci ∈ l2 → d1 = d2)

theorem waitWF_mono {w : Waiting} {n m : Nat} (h : WaitWF w n) (hnm : n ≤ m) :
    WaitWF w m := by
  refine ⟨fun d l hl => ⟨(h.1 d l hl).1, fun ci hci => lt_of_lt_of_le ((h.1 d l hl).2 ci hci) hnm⟩,
    h.2⟩

theorem waitWF_append {w : Waiting} {n : Nat} (h : WaitWF w n) (doc : Document) :
    WaitWF (waitAppend w doc n) (n + 1) := by
  constructor
  · intro d l hl
    by_cases hd : d = doc
    · subst hd
      have : l = (w d).getD [] ++ [n] := by
        simpa [waitAppend, mapSet_eq] using hl.symm
      subst this
      cases hw : w d with
      | none =>
        simp
      | some l0 =>
        have h0 := h.1 d l0 hw
        constructor
        · simp only [hw, Option.getD_some]
          refine List.Nodup.append h0.1 (List.nodup_singleton n) ?_
          intro a ha hb
          have hab := List.mem_singleton.mp hb
          rw [hab] at ha
          exact absurd (h0.2 n ha) (lt_irrefl n)
        · intro ci hci
          simp only [hw, Option.getD_some] at hci
          rcases List.mem_append.mp hci with hm | hm
          · exact lt_of_lt_of_le (h0.2 ci hm) (Nat.le_succ n)
          · rw [List.mem_singleton.mp hm]
            exact Nat.lt_succ_self n
    · have : w d = some l := by
        simpa [waitAppend, mapSet_ne _ _ hd] using hl
      have h0 := h.1 d l this
      exact ⟨h0.1, fun ci hci => lt_of_lt_of_le (h0.2 ci hci) (Nat.le_succ n)⟩
  · intro d1 d2 l1 l2 h1 h2 ci hci1 hci2
    by_cases hd1 : d1 = doc <;> by_cases hd2 : d2 = doc
    · rw [hd1, hd2]
    · subst hd1
      have hl2 : w d2 = some l2 := by
        simpa [waitAppend, mapSet_ne _ _ hd2] using h2
      have hlt : ci < n := (h.1 d2 l2 hl2).2 ci hci2
      have hl1 : l1 = (w d1).getD [] ++ [n] := by
        simpa [waitAppend, mapSet_eq] using h1.symm
      rw [hl1] at hci1
      rcases List.mem_append.mp hci1 with hm | hm
      · cases hw : w d1 with
        | none => rw [hw] at hm; cases hm
        | some l0 =>
          rw [hw] at hm
          exact h.2 d1 d2 l0 l2 hw hl2 ci hm hci2
      · rw [List.mem_singleton.mp hm] at hlt
        exact absurd hlt (lt_irrefl n)
    · subst hd2
      have hl1 : w d1 = some l1 := by
        simpa [waitAppend, mapSet_ne _ _ hd1] using h1
      have hlt : ci < n := (h.1 d1 l1 hl1).2 ci hci1
      have hl2 : l2 = (w d2).getD [] ++ [n] := by
        simpa [waitAppend, mapSet_eq] using h2.symm
      rw [hl2] at hci2
      rcases List.mem_append.mp hci2 with hm | hm
      · cases hw : w d2 with
        | none => rw [hw] at hm; cases hm
        | some l0 =>
          rw [hw] at hm
          exact h.2 d1 d2 l1 l0 hl1 hw ci hci1 hm
      · rw [List.mem_singleton.mp hm] at hlt
        exact absurd hlt (lt_irrefl n)
    · have hl1 : w d1 = some l1 := by
        simpa [waitAppend, mapSet_ne _ _ hd1] using h1
      have hl2 : w d2 = some l2 := by
        simpa [waitAppend, mapSet_ne _ _ hd2] using h2
      exact h.2 d1 d2 l1 l2 hl1 hl2 ci hci1 hci2

theorem reqLoop_waitWF (cache : Cache) :
    ∀ (pairs : List (Nat × Document)) (w : Waiting) (ch : Chans)
      (dtg : List Document) (n : Nat), WaitWF w n →
      pairs.map Prod.fst = List.range' n pairs.length →
      WaitWF (reqLoop cache pairs w ch dtg).1 (n + pairs.length) := by
  intro pairs
  induction pairs with
  | nil => intro w ch dtg n hwf _; simpa using hwf
  | cons p rest ih =>
    intro w ch dtg n hwf hids
    obtain ⟨cj, doc⟩ := p
    have hlen : (cj :: rest.map Prod.fst) = n :: List.range' (n + 1) rest.length := by
      simpa [List.range'_succ] using hids
    have hcj : cj = n := (List.cons.injEq .. ▸ hlen).1
    have hrest : rest.map Prod.fst = List.range' (n + 1) rest.length :=
      (List.cons.injEq .. ▸ hlen).2
    subst hcj
    have hcount : cj + (rest.length + 1) = (cj + 1) + rest.length := by omega
    cases hcd : cache doc with
    | some e =>
      have := ih w (chanSend ch cj ⟨some e, none⟩) dtg (cj + 1)
        (waitWF_mono hwf (Nat.le_succ cj)) hrest
      simpa [reqLoop, hcd, List.length_cons, hcount] using this
    | none =>
      have hwf1 : WaitWF (waitAppend w doc cj) (cj + 1) := waitWF_append hwf doc
      cases hwd : w doc with
      | none =>
        have := ih (waitAppend w doc cj) ch (dtg ++ [doc]) (cj + 1) hwf1 hrest
        simpa [reqLoop, hcd, hwd, List.length_cons, hcount] using this
      | some l0 =>
        have := ih (waitAppend w doc cj) ch dtg (cj + 1) hwf1 hrest
        simpa [reqLoop, hcd, hwd, List.length_cons, hcount] using this

/-! ### Lemmas about the handleGen loop -/

theorem hgl_waiting_shrink (embeddings : List Embedding) (err : Option GenError) :
    ∀ (rest : List Document) (i : Nat) (c : Cache) (w : Waiting) (ch : Chans)
      (out : Cache × Waiting × Chans),
      handleGenLoop embeddings err rest i c w ch = some out →
      ∀ d, out.2.1 d ≠ none → w d ≠ none := by
  intro rest
  induction rest with
  | nil =>
    intro i c w ch out h d hd
    simp only [handleGenLoop] at h
    cases h
    exact hd
  | cons doc rest ih =>
    intro i c w ch out h d hd
    simp only [handleGenLoop] at h
    cases he : embeddings[i]? with
    | none => rw [he] at h; cases h
    | some e =>
      rw [he] at h
      cases hwd : w doc with
      | none =>
        rw [hwd] at h
        exact ih _ _ _ _ _ h d hd
      | some cis =>
        rw [hwd] at h
        have := ih _ _ _ _ _ h d hd
        by_cases hne : d = doc
        · subst hne
          exact absurd (mapDel_eq w d) this
        · rw [mapDel_ne w hne] at this
          exact this

theorem hgl_cache_new (embeddings : List Embedding) (err : Option GenError) :
    ∀ (rest : List Document) (i : Nat) (c : Cache) (w : Waiting) (ch : Chans)
      (out : Cache × Waiting × Chans),
      handleGenLoop embeddings err rest i c w ch = some out →
      ∀ d, out.1 d ≠ none → c d ≠ none ∨ d ∈ rest := by
  intro rest
  induction rest with
  | nil =>
    intro i c w ch out h d hd
    simp only [handleGenLoop] at h
    cases h
    exact Or.inl hd
  | cons doc rest ih =>
    intro i c w ch out h d hd
    simp only [handleGenLoop] at h
    cases he : embeddings[i]? with
    | none => rw [he] at h; cases h
    | some e =>
      rw [he] at h
      have hstep : ∀ (w1 : Waiting) (ch1 : Chans),
          handleGenLoop embeddings err rest (i + 1) (mapSet c doc e) w1 ch1 = some out →
          c d ≠ none ∨ d ∈ doc :: rest := by
        intro w1 ch1 hrec
        rcases ih _ _ _ _ _ hrec d hd with hc | hm
        · by_cases hne : d = doc
          · exact Or.inr (hne ▸ List.mem_cons_self doc rest)
          · rw [mapSet_ne c e hne] at hc
            exact Or.inl hc
        · exact Or.inr (List.mem_cons_of_mem doc hm)
      cases hwd : w doc with
      | none =>
        rw [hwd] at h
        exact hstep _ _ h
      | some cis =>
        rw [hwd] at h
        exact hstep _ _ h

theorem hgl_batch_waiting_none (embeddings : List Embedding) (err : Option GenError) :
    ∀ (rest : List Document) (i : Nat) (c : Cache) (w : Waiting) (ch : Chans)
      (out : Cache × Waiting × Chans),
      handleGenLoop embeddings err rest i c w ch = some out →
      ∀ d ∈ rest, out.2.1 d = none := by
  intro rest
  induction rest with
  | nil => intro i c w ch out _ d hd; cases hd
  | cons doc rest ih =>
    intro i c w ch out h d hd
    simp only [handleGenLoop] at h
    cases he : embeddings[i]? with
    | none => rw [he] at h; cases h
    | some e =>
      rw [he] at h
      rcases List.mem_cons.mp hd with rfl | hmem
      · by_contra hne
        cases hwd : w d with
        | none =>
          rw [hwd] at h
          have := hgl_waiting_shrink embeddings err rest (i + 1) _ _ _ _ h d hne
          exact this hwd
        | some cis =>
          rw [hwd] at h
          have := hgl_waiting_shrink embeddings err rest (i + 1) _ _ _ _ h d hne
          exact this (mapDel_eq w d)
      · cases hwd : w doc with
        | none =>
          rw [hwd] at h
          exact ih _ _ _ _ _ h d hmem
        | some cis =>
          rw [hwd] at h
          exact ih _ _ _ _ _ h d hmem

theorem hgl_cache_other (embeddings : List Embedding) (err : Option GenError) :
    ∀ (rest : List Document) (i : Nat) (c : Cache) (w : Waiting) (ch : Chans)
      (out : Cache × Waiting × Chans),
      handleGenLoop embeddings err rest i c w ch = some out →
      ∀ d, d ∉ rest → out.1 d = c d := by
  intro rest
  induction rest with
  | nil =>
    intro i c w ch out h d _
    simp only [handleGenLoop] at h
    cases h
    rfl
  | cons doc rest ih =>
    intro i c w ch out h d hd
    simp only [handleGenLoop] at h
    cases he : embeddings[i]? with
    | none => rw [he] at h; cases h
    | some e =>
      rw [he] at h
      have hne : d ≠ doc := fun hx => hd (hx ▸ List.mem_cons_self doc rest)
      have hdr : d ∉ rest := fun hx => hd (List.mem_cons_of_mem doc hx)
      have hset : mapSet c doc e d = c d := mapSet_ne c e hne
      cases hwd : w doc with
      | none =>
        rw [hwd] at h
        exact (ih _ _ _ _ _ h d hdr).trans hset
      | some cis =>
        rw [hwd] at h
        exact (ih _ _ _ _ _ h d hdr).trans hset

theorem hgl_waiting_other (embeddings : List Embedding) (err : Option GenError) :
    ∀ (rest : List Document) (i : Nat) (c : Cache) (w : Waiting) (ch : Chans)
      (out : Cache × Waiting × Chans),
      handleGenLoop embeddings err rest i c w ch = some out →
      ∀ d, d ∉ rest → out.2.1 d = w d := by
  intro rest
  induction rest with
  | nil =>
    intro i c w ch out h d _
    simp only [handleGenLoop] at h
    cases h
    rfl
  | cons doc rest ih =>
    intro i c w ch out h d hd
    simp only [handleGenLoop] at h
    cases he : embeddings[i]? with
    | none => rw [he] at h; cases h
    | some e =>
      rw [he] at h
      have hne : d ≠ doc := fun hx => hd (hx ▸ List.mem_cons_self doc rest)
      have hdr : d ∉ rest := fun hx => hd (List.mem_cons_of_mem doc hx)
      cases hwd : w doc with
      | none =>
        rw [hwd] at h
        exact ih _ _ _ _ _ h d hdr
      | some cis =>
        rw [hwd] at h
        exact (ih _ _ _ _ _ h d hdr).trans (mapDel_ne w hne)

/-- The message a waiter of document `d` receives from `handleGen` when the
generator produced `h d` for `d` and the batch error is `err`. -/
def hgMsg (h : Document → Embedding) (err : Option GenError) (d : Document) : Res :=
  match err with
  | some er => { embedding := none, err := some (GenError.wrapGenerating er) }
  | none => { embedding := some (h d), err := none }

/-- Characterization of the `handleGen` loop when the generator produced, at
each batch position, the embedding `h` of the document at that position: the
loop completes (no panic), writes `h d` into the cache for every batch
document `d`, and appends exactly one message to every channel registered
for a batch document — channels registered for no batch document are left
untouched. -/
theorem hgl_success_spec (h : Document → Embedding) (embeddings : List Embedding)
    (err : Option GenError) :
    ∀ (rest : List Document) (i : Nat) (c : Cache) (w : Waiting) (ch : Chans),
      rest.Nodup →
      (∀ j (hj : j < rest.length), embeddings[i + j]? = some (h (rest.get ⟨j, hj⟩))) →
      (∀ d l, w d = some l → l.Nodup) →
      (∀ d1 d2 l1 l2, w d1 = some l1 → w d2 = some l2 →
        ∀ ci, ci ∈ l1 → ci ∈ l2 → d1 = d2) →
      ∃ out, handleGenLoop embeddings err rest i c w ch = some out ∧
        (∀ d ∈ rest, out.1 d = some (h d)) ∧
        (∀ d ∈ rest, ∀ l, w d = some l → ∀ ci ∈ l,
          out.2.2 ci = ch ci ++ [hgMsg h err d]) ∧
        (∀ j, (∀ d ∈ rest, ∀ l, w d = some l → j ∉ l) → out.2.2 j = ch j) := by
  intro rest
  induction rest with
  | nil =>
    intro i c w ch _ _ _ _
    exact ⟨(c, w, ch), rfl, fun d hd => absurd hd (List.not_mem_nil d),
      fun d hd => absurd hd (List.not_mem_nil d), fun j _ => rfl⟩
  | cons doc rest ih =>
    intro i c w ch hnd hemb hwnd hwdisj
    have hdocnot : doc ∉ rest := (List.nodup_cons.mp hnd).1
    have hndrest : rest.Nodup := (List.nodup_cons.mp hnd).2
    have he : embeddings[i]? = some (h doc) := by
      have := hemb 0 (by simp)
      simpa using this
    have hembrest : ∀ j (hj : j < rest.length),
        embeddings[(i + 1) + j]? = some (h (rest.get ⟨j, hj⟩)) := by
      intro j hj
      have hj1 : j + 1 < (doc :: rest).length := by simpa using Nat.succ_lt_succ hj
      have := hemb (j + 1) hj1
      have harith : i + (j + 1) = (i + 1) + j := by omega
      rw [harith] at this
      simpa using this
    cases hwd : w doc with
    | none =>
      obtain ⟨out, hout, hc, hsent, hun⟩ :=
        ih (i + 1) (mapSet c doc (h doc)) w ch hndrest hembrest hwnd hwdisj
      refine ⟨out, ?_, ?_, ?_, ?_⟩
      · simp only [handleGenLoop, he, hwd]
        exact hout
      · intro d hd
        rcases List.mem_cons.mp hd with rfl | hmem
        · have := hgl_cache_other embeddings err rest (i + 1) _ _ _ _ hout d hdocnot
          rw [this, mapSet_eq]
        · exact hc d hmem
      · intro d hd l hl ci hci
        rcases List.mem_cons.mp hd with rfl | hmem
        · rw [hwd] at hl; cases hl
        · exact hsent d hmem l hl ci hci
      · intro j hj
        exact hun j (fun d hd l hl => hj d (List.mem_cons_of_mem doc hd) l hl)
    | some cis =>
      have hcisnd : cis.Nodup := hwnd doc cis hwd
      have hw1nd : ∀ d l, mapDel w doc d = some l → l.Nodup := by
        intro d l hl
        by_cases hne : d = doc
        · subst hne; rw [mapDel_eq] at hl; cases hl
        · rw [mapDel_ne w hne] at hl; exact hwnd d l hl
      have hw1disj : ∀ d1 d2 l1 l2, mapDel w doc d1 = some l1 →
          mapDel w doc d2 = some l2 → ∀ ci, ci ∈ l1 → ci ∈ l2 → d1 = d2 := by
        intro d1 d2 l1 l2 h1 h2 ci hci1 hci2
        by_cases hne1 : d1 = doc
        · subst hne1; rw [mapDel_eq] at h1; cases h1
        · by_cases hne2 : d2 = doc
          · subst hne2; rw [mapDel_eq] at h2; cases h2
          · rw [mapDel_ne w hne1] at h1
            rw [mapDel_ne w hne2] at h2
            exact hwdisj d1 d2 l1 l2 h1 h2 ci hci1 hci2
      obtain ⟨out, hout, hc, hsent, hun⟩ :=
        ih (i + 1) (mapSet c doc (h doc)) (mapDel w doc)
          (sendAll ch cis (hgMsg h err doc)) hndrest hembrest hw1nd hw1disj
      refine ⟨out, ?_, ?_, ?_, ?_⟩
      · simp only [handleGenLoop, he, hwd]
        cases err with
        | none => exact hout
        | some er => exact hout
      · intro d hd
        rcases List.mem_cons.mp hd with rfl | hmem
        · have := hgl_cache_other embeddings err rest (i + 1) _ _ _ _ hout d hdocnot
          rw [this, mapSet_eq]
        · exact hc d hmem
      · intro d hd l hl ci hci
        rcases List.mem_cons.mp hd with rfl | hmem
        · have hlcis : l = cis := by
            rw [hwd] at hl
            cases hl
            rfl
          subst hlcis
          have hch1 : sendAll ch l (hgMsg h err d) ci = ch ci ++ [hgMsg h err d] :=
            sendAll_nodup_mem _ l ch ci hcisnd hci
          have huntouched : ∀ d2 ∈ rest, ∀ l2, mapDel w d d2 = some l2 → ci ∉ l2 := by
            intro d2 hd2 l2 hl2 hci2
            by_cases hne : d2 = d
            · subst hne; rw [mapDel_eq] at hl2; cases hl2
            · rw [mapDel_ne w hne] at hl2
              exact hne (hwdisj d2 d l2 l hl2 hwd ci hci2 hci)
          rw [hun ci huntouched, hch1]
        · have hne : d ≠ doc := fun hx => hdocnot (hx ▸ hmem)
          have hl1 : mapDel w doc d = some l := by rw [mapDel_ne w hne]; exact hl
          have hnosend : ci ∉ cis := by
            intro hci2
            exact hne (hwdisj d doc l cis hl hwd ci hci hci2)
          have := hsent d hmem l hl1 ci hci
          rw [this, sendAll_not_mem _ cis ch ci hnosend]
      · intro j hj
        have hjcis : j ∉ cis := hj doc (List.mem_cons_self doc rest) cis hwd
        have hrec : ∀ d ∈ rest, ∀ l, mapDel w doc d = some l → j ∉ l := by
          intro d hd l hl
          by_cases hne : d = doc
          · subst hne; rw [mapDel_eq] at hl; cases hl
          · rw [mapDel_ne w hne] at hl
            exact hj d (List.mem_cons_of_mem doc hd) l hl
        rw [hun j hrec, sendAll_not_mem _ cis ch j hjcis]

theorem reqLoop_id_fresh (cache : Cache) :
    ∀ (pairs : List (Nat × Document)) (w : Waiting) (ch : Chans)
      (dtg : List Document) (j : Nat),
      (∀ d l, w d = some l → j ∉ l) → (∀ p ∈ pairs, p.1 ≠ j) →
      ∀ d l, (reqLoop cache pairs w ch dtg).1 d = some l → j ∉ l := by
  intro pairs
  induction pairs with
  | nil => intro w ch dtg j hw _ d l hl; exact hw d l hl
  | cons p rest ih =>
    intro w ch dtg j hw hp d l hl
    obtain ⟨cj, doc⟩ := p
    have hcj : cj ≠ j := hp (cj, doc) (List.mem_cons_self _ _)
    have hrest : ∀ p ∈ rest, p.1 ≠ j := fun p hm => hp p (List.mem_cons_of_mem _ hm)
    have hw1 : ∀ d2 l2, waitAppend w doc cj d2 = some l2 → j ∉ l2 := by
      intro d2 l2 hl2 hjm
      by_cases hne : d2 = doc
      · subst hne
        have : l2 = (w d2).getD [] ++ [cj] := by
          simpa [waitAppend, mapSet_eq] using hl2.symm
        rw [this] at hjm
        rcases List.mem_append.mp hjm with hm | hm
        · cases hwx : w d2 with
          | none => rw [hwx] at hm; cases hm
          | some l0 =>
            rw [hwx] at hm
            exact hw d2 l0 hwx hm
        · exact hcj (List.mem_singleton.mp hm).symm
      · rw [waitAppend, mapSet_ne _ _ hne] at hl2
        exact hw d2 l2 hl2 hjm
    cases hcd : cache doc with
    | some e =>
      exact ih _ _ _ j hw hrest d l (by simpa [reqLoop, hcd] using hl)
    | none =>
      cases hwd : w doc with
      | none => exact ih _ _ _ j hw1 hrest d l (by simpa [reqLoop, hcd, hwd] using hl)
      | some l0 => exact ih _ _ _ j hw1 hrest d l (by simpa [reqLoop, hcd, hwd] using hl)

theorem reqLoop_cached_id_fresh (cache : Cache) :
    ∀ (pairs : List (Nat × Document)) (w : Waiting) (ch : Chans)
      (dtg : List Document) (ci : Nat) (d : Document) (v : Embedding),
      (pairs.map Prod.fst).Nodup → (∀ d2 l, w d2 = some l → ci ∉ l) →
      (ci, d) ∈ pairs → cache d = some v →
      ∀ d2 l, (reqLoop cache pairs w ch dtg).1 d2 = some l → ci ∉ l := by
  intro pairs
  induction pairs with
  | nil => intro w ch dtg ci d v _ _ hp _; cases hp
  | cons p rest ih =>
    intro w ch dtg ci d v hnd hw hp hv
    obtain ⟨cj, doc⟩ := p
    have hndrest : (rest.map Prod.fst).Nodup := (List.nodup_cons.mp (by simpa using hnd)).2
    have hheadnot : cj ∉ rest.map Prod.fst := (List.nodup_cons.mp (by simpa using hnd)).1
    rcases List.mem_cons.mp hp with heq | hmem
    · injection heq with h1 h2
      subst h1; subst h2
      have hrest : ∀ p ∈ rest, p.1 ≠ ci := by
        intro p hp' h
        exact hheadnot (h ▸ List.mem_map_of_mem Prod.fst hp')
      intro d2 l hl
      exact reqLoop_id_fresh cache rest w _ _ ci hw hrest d2 l (by simpa [reqLoop, hv] using hl)
    · have hci : ci ∈ rest.map Prod.fst := List.mem_map_of_mem Prod.fst hmem
      have hne : cj ≠ ci := fun h => hheadnot (h ▸ hci)
      have hw1 : ∀ d2 l2, waitAppend w doc cj d2 = some l2 → ci ∉ l2 := by
        intro d2 l2 hl2 hcim
        by_cases hned : d2 = doc
        · subst hned
          have : l2 = (w d2).getD [] ++ [cj] := by
            simpa [waitAppend, mapSet_eq] using hl2.symm
          rw [this] at hcim
          rcases List.mem_append.mp hcim with hm | hm
          · cases hwx : w d2 with
            | none => rw [hwx] at hm; cases hm
            | some l0 =>
              rw [hwx] at hm
              exact hw d2 l0 hwx hm
          · exact hne (List.mem_singleton.mp hm).symm
        · rw [waitAppend, mapSet_ne _ _ hned] at hl2
          exact hw d2 l2 hl2 hcim
      intro d2 l hl
      cases hcd : cache doc with
      | some e =>
        exact ih _ _ _ ci d v hndrest hw hmem hv d2 l (by simpa [reqLoop, hcd] using hl)
      | none =>
        cases hwd : w doc with
        | none =>
          exact ih _ _ _ ci d v hndrest hw1 hmem hv d2 l (by simpa [reqLoop, hcd, hwd] using hl)
        | some l0 =>
          exact ih _ _ _ ci d v hndrest hw1 hmem hv d2 l (by simpa [reqLoop, hcd, hwd] using hl)

theorem reqLoop_dtg_from_pairs (cache : Cache) :
    ∀ (pairs : List (Nat × Document)) (w : Waiting) (ch : Chans)
      (dtg : List Document) (d : Document),
      d ∈ (reqLoop cache pairs w ch dtg).2.2 →
      d ∈ dtg ∨ d ∈ pairs.map Prod.snd := by
  intro pairs
  induction pairs with
  | nil => intro w ch dtg d hd; exact Or.inl hd
  | cons p rest ih =>
    intro w ch dtg d hd
    obtain ⟨cj, doc⟩ := p
    cases hcd : cache doc with
    | some e =>
      rcases ih _ _ _ d (by simpa [reqLoop, hcd] using hd) with h | h
      · exact Or.inl h
      · exact Or.inr (by simpa using Or.inr (by simpa using h))
    | none =>
      cases hwd : w doc with
      | none =>
        rcases ih _ _ _ d (by simpa [reqLoop, hcd, hwd] using hd) with h | h
        · rcases List.mem_append.mp h with hm | hm
          · exact Or.inl hm
          · rcases List.mem_singleton.mp hm with rfl
            exact Or.inr (by simp)
        · exact Or.inr (by simpa using Or.inr (by simpa using h))
      | some l0 =>
        rcases ih _ _ _ d (by simpa [reqLoop, hcd, hwd] using hd) with h | h
        · exact Or.inl h
        · exact Or.inr (by simpa using Or.inr (by simpa using h))

/-- The collection loop returns the accumulated list followed by one value per
channel when every channel's buffer holds exactly the expected success
message at its head. -/
theorem collectLoop_ok (ch : Chans) :
    ∀ (ids : List Nat) (vals : List Embedding) (acc : List Embedding),
      ids.length = vals.length →
      (∀ j (hj : j < ids.length) (hj2 : j < vals.length),
        (ch (ids.get ⟨j, hj⟩)).head? = some ⟨some (vals.get ⟨j, hj2⟩), none⟩) →
      collectLoop ch ids acc = some (Except.ok (acc ++ vals)) := by
  intro ids
  induction ids with
  | nil =>
    intro vals acc hlen _
    have : vals = [] := List.eq_nil_of_length_eq_zero hlen.symm
    subst this
    simp [collectLoop]
  | cons ci rest ih =>
    intro vals acc hlen hhead
    cases vals with
    | nil => cases hlen
    | cons v vrest =>
      have hv : (ch ci).head? = some ⟨some v, none⟩ := by
        have := hhead 0 (by simp) (by simp)
        simpa using this
      have hrest : ∀ j (hj : j < rest.length) (hj2 : j < vrest.length),
          (ch (rest.get ⟨j, hj⟩)).head? = some ⟨some (vrest.get ⟨j, hj2⟩), none⟩ := by
        intro j hj hj2
        have := hhead (j + 1) (by simpa using Nat.succ_lt_succ hj)
          (by simpa using Nat.succ_lt_succ hj2)
        simpa using this
      have := ih vrest (acc ++ [v]) (by simpa using hlen) hrest
      simpa [collectLoop, hv, List.append_assoc] using this

/-- Specification of a single `requestEmbeddings` call starting from a state
whose waiting map is empty and whose unallocated channels are fresh: the
batch lists exactly the uncached documents, without duplicates; cached
positions get their value sent immediately on their private channel and are
never registered as waiters; uncached positions are registered as waiters
of their document with an empty channel. -/
theorem request_spec (st : CState) (docs : List Document)
    (hfresh : ∀ i, st.nextChan ≤ i → st.chans i = [])
    (hw : ∀ d, st.waiting d = none) :
    (requestEmbeddings st docs).chanIds = List.range' st.nextChan docs.length ∧
    (requestEmbeddings st docs).state.cache = st.cache ∧
    (requestEmbeddings st docs).batch.Nodup ∧
    (∀ d ∈ (requestEmbeddings st docs).batch, st.cache d = none ∧ d ∈ docs) ∧
    (∀ d, (requestEmbeddings st docs).state.waiting d ≠ none →
      d ∈ (requestEmbeddings st docs).batch) ∧
    (∀ d ∈ (requestEmbeddings st docs).batch,
      (requestEmbeddings st docs).state.waiting d ≠ none) ∧
    WaitWF (requestEmbeddings st docs).state.waiting (st.nextChan + docs.length) ∧
    (∀ i, st.nextChan + docs.length ≤ i →
      (requestEmbeddings st docs).state.chans i = []) ∧
    (∀ j (hj : j < docs.length) (v : Embedding),
      st.cache (docs.get ⟨j, hj⟩) = some v →
      (requestEmbeddings st docs).state.chans (st.nextChan + j) = [⟨some v, none⟩] ∧
      ∀ d2 l, (requestEmbeddings st docs).state.waiting d2 = some l →
        st.nextChan + j ∉ l) ∧
    (∀ j (hj : j < docs.length),
      st.cache (docs.get ⟨j, hj⟩) = none →
      (requestEmbeddings st docs).state.chans (st.nextChan + j) = [] ∧
      ∃ l, (requestEmbeddings st docs).state.waiting (docs.get ⟨j, hj⟩) = some l ∧
        st.nextChan + j ∈ l) := by
  have hids_len : (List.range' st.nextChan docs.length).length = docs.length :=
    List.length_range' st.nextChan 1 docs.length
  have hfst : ((List.range' st.nextChan docs.length).zip docs).map Prod.fst =
      List.range' st.nextChan docs.length :=
    List.map_fst_zip _ docs hids_len.le
  have hsnd : ((List.range' st.nextChan docs.length).zip docs).map Prod.snd = docs :=
    List.map_snd_zip _ docs hids_len.ge
  have hid_nodup : (List.range' st.nextChan docs.length).Nodup :=
    List.nodup_range' st.nextChan docs.length 1 one_pos
  have hfst_nodup : (((List.range' st.nextChan docs.length).zip docs).map Prod.fst).Nodup := by
    rw [hfst]; exact hid_nodup
  have hpairs_len : ((List.range' st.nextChan docs.length).zip docs).length = docs.length := by
    simp [List.length_zip, hids_len]
  have hpair_get : ∀ j (hj : j < docs.length),
      (st.nextChan + j, docs.get ⟨j, hj⟩) ∈
        (List.range' st.nextChan docs.length).zip docs := by
    intro j hj
    have hjp : j < ((List.range' st.nextChan docs.length).zip docs).length := by
      rw [hpairs_len]; exact hj
    have hget : ((List.range' st.nextChan docs.length).zip docs).get ⟨j, hjp⟩ =
        (st.nextChan + j, docs.get ⟨j, hj⟩) := by
      rw [List.get_eq_getElem, List.getElem_zip]
      refine Prod.ext ?_ ?_
      · simp [List.getElem_range'_1]
      · simp [List.get_eq_getElem]
    rw [← hget]
    exact List.get_mem _ j hjp
  have hid_mem_ge : ∀ p ∈ (List.range' st.nextChan docs.length).zip docs,
      st.nextChan ≤ p.1 ∧ p.1 < st.nextChan + docs.length := by
    intro p hp
    have : p.1 ∈ List.range' st.nextChan docs.length := by
      rw [← hfst]; exact List.mem_map_of_mem Prod.fst hp
    have := List.mem_range'_1.mp this
    exact ⟨this.1, this.2⟩
  have hwempty : ∀ d l, st.waiting d = some l → False := by
    intro d l hl
    rw [hw d] at hl
    cases hl
  have hQc : (requestEmbeddings st docs).state.chans =
      (reqLoop st.cache ((List.range' st.nextChan docs.length).zip docs)
        st.waiting st.chans []).2.1 := rfl
  refine ⟨rfl, rfl, ?_, ?_, ?_, ?_, ?_, ?_, ?_, ?_⟩
  · exact (reqLoop_dtg_nodup st.cache _ st.waiting st.chans []
      (fun d hd => absurd hd (List.not_mem_nil d)) List.nodup_nil).1
  · intro d hd
    constructor
    · rcases reqLoop_dtg_uncached st.cache _ st.waiting st.chans [] d hd with hm | hm
      · exact absurd hm (List.not_mem_nil d)
      · exact hm
    · rcases reqLoop_dtg_from_pairs st.cache _ st.waiting st.chans [] d hd with hm | hm
      · exact absurd hm (List.not_mem_nil d)
      · rw [hsnd] at hm; exact hm
  · intro d hd
    rcases reqLoop_sub_dtg st.cache _ st.waiting st.chans [] d hd with hm | hm
    · exact absurd (hw d) hm
    · exact hm
  · intro d hd
    exact (reqLoop_dtg_nodup st.cache _ st.waiting st.chans []
      (fun d2 hd2 => absurd hd2 (List.not_mem_nil d2)) List.nodup_nil).2 d hd
  · have hwf0 : WaitWF st.waiting st.nextChan := by
      refine ⟨fun d l hl => absurd hl (fun h => hwempty d l h), ?_⟩
      intro d1 d2 l1 l2 h1 _ _ _ _
      exact absurd h1 (fun h => hwempty d1 l1 h)
    have := reqLoop_waitWF st.cache _ st.waiting st.chans [] st.nextChan hwf0
      (by rw [hfst, hpairs_len])
    simpa [hpairs_len] using this
  · intro i hi
    have hnot : ∀ p ∈ (List.range' st.nextChan docs.length).zip docs, p.1 ≠ i := by
      intro p hp hpi
      have := (hid_mem_ge p hp).2
      omega
    have := reqLoop_chans_not_mem st.cache _ st.waiting st.chans [] i hnot
    rw [hQc, this]
    exact hfresh i (by omega)
  · intro j hj v hv
    constructor
    · have := reqLoop_chans_cached st.cache _ st.waiting st.chans []
        (st.nextChan + j) (docs.get ⟨j, hj⟩) v hfst_nodup (hpair_get j hj) hv
      rw [hQc, this, hfresh (st.nextChan + j) (by omega)]
      simp
    · intro d2 l hl
      exact reqLoop_cached_id_fresh st.cache _ st.waiting st.chans []
        (st.nextChan + j) (docs.get ⟨j, hj⟩) v hfst_nodup
        (fun d3 l3 h3 => absurd h3 (fun h => hwempty d3 l3 h))
        (hpair_get j hj) hv d2 l hl
  · intro j hj hv
    constructor
    · rw [hQc]
      exact (reqLoop_chans_uncached st.cache _ st.waiting st.chans []
        (st.nextChan + j) (docs.get ⟨j, hj⟩) hfst_nodup (hpair_get j hj) hv).trans
        (hfresh (st.nextChan + j) (by omega))
    · exact reqLoop_waiting_mem st.cache _ st.waiting st.chans []
        (st.nextChan + j) (docs.get ⟨j, hj⟩) (hpair_get j hj) hv

/-- Master characterization of one sequential `Generate` call under the
pointwise successful generator `gOf h`, starting from a state with an empty
waiting map and fresh unallocated channels: the call returns one result per
input position, in input order — the cached value where one exists, the
freshly generated value otherwise — and the final state caches exactly the
input documents on top of the old cache, with an empty waiting map again. -/
theorem generate_success_spec (h : Document → Embedding) (st : CState)
    (docs : List Document)
    (hfresh : ∀ i, st.nextChan ≤ i → st.chans i = [])
    (hw : ∀ d, st.waiting d = none) :
    ∃ st2, Generate (gOf h) st docs =
      some (Except.ok (docs.map (fun d => (st.cache d).getD (h d))), st2) ∧
      (∀ d ∈ docs, st2.cache d = some ((st.cache d).getD (h d))) ∧
      (∀ d, d ∉ docs → st2.cache d = st.cache d) ∧
      (∀ d, st2.waiting d = none) ∧
      (∀ i, st2.nextChan ≤ i → st2.chans i = []) ∧
      st2.nextChan = st.nextChan + docs.length := by
  obtain ⟨hcid, hc0, hbnd, hbun, hwsub, hbw, hwf, hchfr, hcached, huncached⟩ :=
    request_spec st docs hfresh hw
  have hidget : ∀ j (hj2 : j < (List.range' st.nextChan docs.length).length),
      (List.range' st.nextChan docs.length).get ⟨j, hj2⟩ = st.nextChan + j := by
    intro j hj2
    simp [List.get_eq_getElem, List.getElem_range'_1]
  have hids_len : (List.range' st.nextChan docs.length).length = docs.length :=
    List.length_range' st.nextChan 1 docs.length
  have hvals_len : (docs.map (fun d => (st.cache d).getD (h d))).length = docs.length :=
    List.length_map docs _
  have hvget : ∀ j (hjv : j < (docs.map (fun d => (st.cache d).getD (h d))).length)
      (hj : j < docs.length),
      (docs.map (fun d => (st.cache d).getD (h d))).get ⟨j, hjv⟩ =
        (st.cache (docs.get ⟨j, hj⟩)).getD (h (docs.get ⟨j, hj⟩)) := by
    intro j hjv hj
    simp [List.get_eq_getElem, List.getElem_map]
  by_cases hbe : (requestEmbeddings st docs).batch.isEmpty
  · -- every document was cached; no batch is dispatched
    have hallcached : ∀ d, (requestEmbeddings st docs).state.waiting d = none := by
      intro d
      by_contra hne
      have := hwsub d hne
      rw [List.isEmpty_iff.mp hbe] at this
      cases this
    have hdoccached : ∀ j (hj : j < docs.length),
        st.cache (docs.get ⟨j, hj⟩) ≠ none := by
      intro j hj hnone
      obtain ⟨l, hl, _⟩ := (huncached j hj hnone).2
      exact absurd (hallcached (docs.get ⟨j, hj⟩)) (by rw [hl]; simp)
    have hcollect : collectLoop (requestEmbeddings st docs).state.chans
        (List.range' st.nextChan docs.length) [] =
        some (Except.ok ([] ++ docs.map (fun d => (st.cache d).getD (h d)))) := by
      apply collectLoop_ok
      · rw [hids_len, hvals_len]
      · intro j hj2 hjv
        have hj : j < docs.length := by rw [← hids_len]; exact hj2
        cases hcv : st.cache (docs.get ⟨j, hj⟩) with
        | none => exact absurd hcv (hdoccached j hj)
        | some v =>
          have := (hcached j hj v hcv).1
          rw [hidget j hj2, this, hvget j hjv hj, hcv]
          simp
    refine ⟨(requestEmbeddings st docs).state, ?_, ?_, ?_, hallcached, ?_, rfl⟩
    · show (match (if (requestEmbeddings st docs).batch.isEmpty then
          some (requestEmbeddings st docs).state
        else handleGen (gOf h) (requestEmbeddings st docs).batch
          { (requestEmbeddings st docs).state with pending := st.pending }) with
        | none => none
        | some st2 =>
          match collectLoop st2.chans (requestEmbeddings st docs).chanIds [] with
          | none => none
          | some out => some (out, st2)) =
        some (Except.ok (docs.map (fun d => (st.cache d).getD (h d))),
          (requestEmbeddings st docs).state)
      rw [if_pos hbe]
      have hcid2 : (requestEmbeddings st docs).chanIds =
          List.range' st.nextChan docs.length := hcid
      rw [hcid2]
      show (match collectLoop (requestEmbeddings st docs).state.chans
          (List.range' st.nextChan docs.length) [] with
        | none => none
        | some out => some (out, (requestEmbeddings st docs).state)) = _
      rw [hcollect]
      simp
    · intro d hd
      obtain ⟨⟨j2, hj2⟩, hdj⟩ := List.mem_iff_get.mp hd
      cases hcv : st.cache d with
      | none =>
        exact absurd (by rw [hdj]; exact hcv) (hdoccached j2 hj2)
      | some v =>
        have hcc : (requestEmbeddings st docs).state.cache = st.cache := hc0
        rw [hcc, hcv]
        simp
    · intro d _
      rw [hc0]
    · intro i hi
      exact hchfr i hi
  · -- a non-empty batch is dispatched and handled by the worker
    have hemb : ∀ j (hj : j < (requestEmbeddings st docs).batch.length),
        ((requestEmbeddings st docs).batch.map h)[0 + j]? =
          some (h ((requestEmbeddings st docs).batch.get ⟨j, hj⟩)) := by
      intro j hj
      have hzero : 0 + j = j := by omega
      rw [hzero, List.getElem?_map, List.getElem?_eq_getElem hj]
      simp [List.get_eq_getElem]
    obtain ⟨out, hout, hcch, hsent, hun⟩ := hgl_success_spec h
      ((requestEmbeddings st docs).batch.map h) none
      (requestEmbeddings st docs).batch 0
      (requestEmbeddings st docs).state.cache
      (requestEmbeddings st docs).state.waiting
      (requestEmbeddings st docs).state.chans
      hbnd hemb (fun d l hl => (hwf.1 d l hl).1) hwf.2
    have hhg : handleGen (gOf h) (requestEmbeddings st docs).batch
        { (requestEmbeddings st docs).state with pending := st.pending } =
        some { cache := out.1, waiting := out.2.1, chans := out.2.2,
               nextChan := (requestEmbeddings st docs).state.nextChan,
               pending := st.pending } := by
      show (match handleGenLoop ((requestEmbeddings st docs).batch.map h) none
          (requestEmbeddings st docs).batch 0
          (requestEmbeddings st docs).state.cache
          (requestEmbeddings st docs).state.waiting
          (requestEmbeddings st docs).state.chans with
        | none => none
        | some o =>
          some ({ cache := o.1, waiting := o.2.1, chans := o.2.2,
                  nextChan := (requestEmbeddings st docs).state.nextChan,
                  pending := st.pending } : CState)) = _
      rw [hout]
    have hbatch_mem : ∀ d, (requestEmbeddings st docs).state.waiting d ≠ none →
        d ∈ (requestEmbeddings st docs).batch := hwsub
    have hnotbatch_cached : ∀ d v, st.cache d = some v →
        d ∉ (requestEmbeddings st docs).batch := by
      intro d v hv hmem
      have := (hbun d hmem).1
      rw [hv] at this
      cases this
    have hcollect : collectLoop out.2.2 (List.range' st.nextChan docs.length) [] =
        some (Except.ok ([] ++ docs.map (fun d => (st.cache d).getD (h d)))) := by
      apply collectLoop_ok
      · rw [hids_len, hvals_len]
      · intro j hj2 hjv
        have hj : j < docs.length := by rw [← hids_len]; exact hj2
        rw [hidget j hj2, hvget j hjv hj]
        cases hcv : st.cache (docs.get ⟨j, hj⟩) with
        | some v =>
          have hch := (hcached j hj v hcv).1
          have hnow : ∀ d2 ∈ (requestEmbeddings st docs).batch, ∀ l,
              (requestEmbeddings st docs).state.waiting d2 = some l →
              st.nextChan + j ∉ l :=
            fun d2 _ l hl => (hcached j hj v hcv).2 d2 l hl
          rw [hun (st.nextChan + j) hnow, hch]
          simp
        | none =>
          obtain ⟨hch0, l, hl, hmem⟩ := huncached j hj hcv
          have hdb : docs.get ⟨j, hj⟩ ∈ (requestEmbeddings st docs).batch :=
            hwsub _ (by rw [hl]; simp)
          have := hsent (docs.get ⟨j, hj⟩) hdb l hl (st.nextChan + j) hmem
          rw [this, hch0]
          simp [hgMsg]
    refine ⟨{ cache := out.1, waiting := out.2.1, chans := out.2.2,
              nextChan := (requestEmbeddings st docs).state.nextChan,
              pending := st.pending }, ?_, ?_, ?_, ?_, ?_, rfl⟩
    · show (match (if (requestEmbeddings st docs).batch.isEmpty then
          some (requestEmbeddings st docs).state
        else handleGen (gOf h) (requestEmbeddings st docs).batch
          { (requestEmbeddings st docs).state with pending := st.pending }) with
        | none => none
        | some st2 =>
          match collectLoop st2.chans (requestEmbeddings st docs).chanIds [] with
          | none => none
          | some o => some (o, st2)) =
        some (Except.ok (docs.map (fun d => (st.cache d).getD (h d))), _)
      rw [if_neg (by simpa using hbe), hhg]
      have hcid2 : (requestEmbeddings st docs).chanIds =
          List.range' st.nextChan docs.length := hcid
      rw [hcid2]
      show (match collectLoop out.2.2 (List.range' st.nextChan docs.length) [] with
        | none => none
        | some o => some (o, _)) = _
      rw [hcollect]
      simp
    · intro d hd
      cases hcv : st.cache d with
      | some v =>
        have hnb : d ∉ (requestEmbeddings st docs).batch := hnotbatch_cached d v hcv
        have := hgl_cache_other _ _ _ _ _ _ _ _ hout d hnb
        show out.1 d = _
        rw [this]
        have : (requestEmbeddings st docs).state.cache = st.cache := hc0
        rw [this, hcv]
        simp
      | none =>
        obtain ⟨⟨j2, hj2⟩, hdj⟩ := List.mem_iff_get.mp hd
        have hcv2 : st.cache (docs.get ⟨j2, hj2⟩) = none := by rw [hdj]; exact hcv
        obtain ⟨hch0, l, hl, hmem⟩ := huncached j2 hj2 hcv2
        have hdb : d ∈ (requestEmbeddings st docs).batch := by
          rw [← hdj]
          exact hwsub _ (by rw [hl]; simp)
        have := hcch d hdb
        show out.1 d = _
        rw [this]
        simp
    · intro d hd
      have hnb : d ∉ (requestEmbeddings st docs).batch := by
        intro hmem
        exact hd (hbun d hmem).2
      have := hgl_cache_other _ _ _ _ _ _ _ _ hout d hnb
      show out.1 d = _
      rw [this, hc0]
    · intro d
      show out.2.1 d = none
      by_cases hdb : d ∈ (requestEmbeddings st docs).batch
      · exact hgl_batch_waiting_none _ _ _ _ _ _ _ _ hout d hdb
      · have := hgl_waiting_other _ _ _ _ _ _ _ _ hout d hdb
        rw [this]
        by_contra hne
        exact hdb (hwsub d hne)
    · intro i hi
      show out.2.2 i = []
      have hno : ∀ d ∈ (requestEmbeddings st docs).batch, ∀ l,
          (requestEmbeddings st docs).state.waiting d = some l → i ∉ l := by
        intro d _ l hl hmem
        have := (hwf.1 d l hl).2 i hmem
        have hi2 : st.nextChan + docs.length ≤ i := hi
        omega
      rw [hun i hno]
      exact hchfr i hi

/-! ### The concurrent step model

Each lock-protected section of the Go code is one atomic step: the body of
`requestEmbeddings` (a caller's registration under the mutex) and the
post-generator body of `handleGen` (the worker's publication under the
mutex).  The channel receives in `Generate` read private per-call channels
and touch no shared state, so they need no step of their own.  A `handleGen`
whose loop panics has no successor state. -/

/-- One atomic step of the concurrent system for a fixed wrapped
generator `g`. -/
inductive Step (g : List Document → GenResult) : CState → CState → Prop
  | request (st : CState) (docs : List Document) :
      Step g st (requestEmbeddings st docs).state
  | handle (st st' : CState) (b : List Document) (l1 l2 : List (List Document)) :
      st.pending = l1 ++ b :: l2 →
      handleGen g b { st with pending := l1 ++ l2 } = some st' →
      Step g st st'

/-- States reachable from a freshly constructed generator
(`NewEmbeddingsGenerator`). -/
def Reachable (g : List Document → GenResult) (st : CState) : Prop :=
  Relation.ReflTransGen (Step g) initState st

/-- Global well-formedness invariant of the shared state: no document is in
both the cache and the waiting map; every document of a dispatched,
not-yet-handled batch is uncached and has waiters; and no document appears
in two dispatched batches. -/
def Inv (st : CState) : Prop :=
  (∀ d, st.cache d ≠ none → st.waiting d = none) ∧
  (∀ b ∈ st.pending, ∀ d ∈ b, st.cache d = none ∧ st.waiting d ≠ none) ∧
  (∀ d, st.pending.countP (fun b => decide (d ∈ b)) ≤ 1)

theorem handleGen_def (g : List Document → GenResult) (batch : List Document)
    (st : CState) : handleGen g batch st =
    match handleGenLoop (g batch).1 (g batch).2 batch 0
        st.cache st.waiting st.chans with
    | none => none
    | some out =>
      some { st with cache := out.1, waiting := out.2.1, chans := out.2.2 } := rfl

theorem handleGen_eq_some (g : List Document → GenResult) (batch : List Document)
    (st st' : CState) (h : handleGen g batch st = some st') :
    ∃ out, handleGenLoop (g batch).1 (g batch).2 batch 0
        st.cache st.waiting st.chans = some out ∧
      st' = { st with cache := out.1, waiting := out.2.1, chans := out.2.2 } := by
  rw [handleGen_def] at h
  cases hout : handleGenLoop (g batch).1 (g batch).2 batch 0
      st.cache st.waiting st.chans with
  | none =>
    rw [hout] at h
    cases h
  | some out =>
    rw [hout] at h
    refine ⟨out, rfl, ?_⟩
    have h2 := Option.some.inj h
    exact h2.symm

theorem inv_initState : Inv initState := by
  refine ⟨fun d hd => absurd rfl hd, ?_, ?_⟩
  · intro b hb
    cases hb
  · intro d
    simp [initState]

theorem inv_step (g : List Document → GenResult) (st st' : CState)
    (hinv : Inv st) (hstep : Step g st st') : Inv st' := by
  cases hstep with
  | request docs =>
    obtain ⟨ha, hb, hc⟩ := hinv
    have hbatch_uncached : ∀ d ∈ (requestEmbeddings st docs).batch,
        st.cache d = none := by
      intro d hd
      rcases reqLoop_dtg_uncached st.cache _ st.waiting st.chans [] d hd with hm | hm
      · exact absurd hm (List.not_mem_nil d)
      · exact hm
    have hbatch_waiting : ∀ d ∈ (requestEmbeddings st docs).batch,
        (requestEmbeddings st docs).state.waiting d ≠ none := by
      intro d hd
      exact (reqLoop_dtg_nodup st.cache _ st.waiting st.chans []
        (fun d2 hd2 => absurd hd2 (List.not_mem_nil d2)) List.nodup_nil).2 d hd
    have hbatch_notold : ∀ d ∈ (requestEmbeddings st docs).batch,
        st.waiting d = none := by
      intro d hd
      by_contra hne
      have := (reqLoop_dtg_of_waiting st.cache _ st.waiting st.chans [] d hne).mp hd
      exact absurd this (List.not_mem_nil d)
    have hwgrow : ∀ d, st.waiting d ≠ none →
        (requestEmbeddings st docs).state.waiting d ≠ none := by
      intro d hd
      exact reqLoop_waiting_grow st.cache _ st.waiting st.chans [] d hd
    have hpend : (requestEmbeddings st docs).state.pending = st.pending ∨
        (requestEmbeddings st docs).state.pending =
          st.pending ++ [(requestEmbeddings st docs).batch] := by
      by_cases hbe : (requestEmbeddings st docs).batch.isEmpty
      · left
        show (if (requestEmbeddings st docs).batch.isEmpty then st.pending
          else st.pending ++ [(requestEmbeddings st docs).batch]) = st.pending
        rw [if_pos hbe]
      · right
        show (if (requestEmbeddings st docs).batch.isEmpty then st.pending
          else st.pending ++ [(requestEmbeddings st docs).batch]) =
          st.pending ++ [(requestEmbeddings st docs).batch]
        rw [if_neg (by simpa using hbe)]
    refine ⟨?_, ?_, ?_⟩
    · intro d hd
      have hd0 : st.cache d ≠ none := hd
      show (reqLoop st.cache ((List.range' st.nextChan docs.length).zip docs)
        st.waiting st.chans []).1 d = none
      rw [reqLoop_waiting_of_cached st.cache _ st.waiting st.chans [] d hd0]
      exact ha d hd0
    · intro b2 hb2 d hd
      rcases hpend with hp | hp
      · rw [hp] at hb2
        obtain ⟨hc1, hw1⟩ := hb b2 hb2 d hd
        exact ⟨hc1, hwgrow d hw1⟩
      · rw [hp] at hb2
        rcases List.mem_append.mp hb2 with hm | hm
        · obtain ⟨hc1, hw1⟩ := hb b2 hm d hd
          exact ⟨hc1, hwgrow d hw1⟩
        · rcases List.mem_singleton.mp hm with rfl
          exact ⟨hbatch_uncached d hd, hbatch_waiting d hd⟩
    · intro d
      rcases hpend with hp | hp
      · rw [hp]
        exact hc d
      · rw [hp, List.countP_append]
        by_cases hdb : d ∈ (requestEmbeddings st docs).batch
        · have hzero : st.pending.countP (fun b => decide (d ∈ b)) = 0 := by
            rw [List.countP_eq_zero]
            intro b2 hb2
            simp only [decide_eq_true_eq]
            intro hdb2
            exact (hb b2 hb2 d hdb2).2 (hbatch_notold d hdb)
          rw [hzero]
          simp [List.countP_cons, hdb]
        · have hone : List.countP (fun b => decide (d ∈ b))
              [(requestEmbeddings st docs).batch] = 0 := by
            simp [List.countP_cons, hdb]
          rw [hone]
          simpa using hc d
  | handle st' b l1 l2 hpend hhg =>
    obtain ⟨ha, hb, hc⟩ := hinv
    obtain ⟨out, hout, hst'⟩ := handleGen_eq_some g b _ st' hhg
    have hsub : ∀ b2 ∈ l1 ++ l2, b2 ∈ st.pending := by
      intro b2 hb2
      rw [hpend]
      rcases List.mem_append.mp hb2 with hm | hm
      · exact List.mem_append_left _ hm
      · exact List.mem_append_right _ (List.mem_cons_of_mem _ hm)
    have hnotb : ∀ b2 ∈ l1 ++ l2, ∀ d ∈ b2, d ∉ b := by
      intro b2 hb2 d hd hdb
      have h1 : 0 < List.countP (fun x => decide (d ∈ x)) (l1 ++ l2) := by
        rw [List.countP_pos_iff]
        exact ⟨b2, hb2, by simpa using hd⟩
      have hcount := hc d
      rw [hpend] at hcount
      have e1 : List.countP (fun x => decide (d ∈ x)) (l1 ++ b :: l2) =
          List.countP (fun x => decide (d ∈ x)) l1 +
            (List.countP (fun x => decide (d ∈ x)) l2 + 1) := by
        rw [List.countP_append, List.countP_cons]
        simp [hdb]
      have e2 : List.countP (fun x => decide (d ∈ x)) (l1 ++ l2) =
          List.countP (fun x => decide (d ∈ x)) l1 +
            List.countP (fun x => decide (d ∈ x)) l2 :=
        List.countP_append _ _ _
      omega
    subst hst'
    refine ⟨?_, ?_, ?_⟩
    · intro d hd
      rcases hgl_cache_new (g b).1 (g b).2 b 0 _ _ _ _ hout d hd with hcm | hm
      · have hwnone := ha d hcm
        show out.2.1 d = none
        by_contra hne
        exact (hgl_waiting_shrink (g b).1 (g b).2 b 0 _ _ _ _ hout d hne) hwnone
      · exact hgl_batch_waiting_none (g b).1 (g b).2 b 0 _ _ _ _ hout d hm
    · intro b2 hb2 d hd
      have hb2p : b2 ∈ st.pending := hsub b2 hb2
      have hdnb : d ∉ b := hnotb b2 hb2 d hd
      obtain ⟨hc1, hw1⟩ := hb b2 hb2p d hd
      constructor
      · show out.1 d = none
        rw [hgl_cache_other (g b).1 (g b).2 b 0 _ _ _ _ hout d hdnb]
        exact hc1
      · show out.2.1 d ≠ none
        rw [hgl_waiting_other (g b).1 (g b).2 b 0 _ _ _ _ hout d hdnb]
        exact hw1
    · intro d
      have hcount := hc d
      rw [hpend] at hcount
      show List.countP (fun x => decide (d ∈ x)) (l1 ++ l2) ≤ 1
      have e2 : List.countP (fun x => decide (d ∈ x)) (l1 ++ l2) =
          List.countP (fun x => decide (d ∈ x)) l1 +
            List.countP (fun x => decide (d ∈ x)) l2 :=
        List.countP_append _ _ _
      by_cases hdb : d ∈ b
      · have e1 : List.countP (fun x => decide (d ∈ x)) (l1 ++ b :: l2) =
            List.countP (fun x => decide (d ∈ x)) l1 +
              (List.countP (fun x => decide (d ∈ x)) l2 + 1) := by
          rw [List.countP_append, List.countP_cons]
          simp [hdb]
        omega
      · have e1 : List.countP (fun x => decide (d ∈ x)) (l1 ++ b :: l2) =
            List.countP (fun x => decide (d ∈ x)) l1 +
              (List.countP (fun x => decide (d ∈ x)) l2 + 0) := by
          rw [List.countP_append, List.countP_cons]
          simp [hdb]
        omega

/-- Every reachable state satisfies the global invariant. -/
theorem reachable_inv (g : List Document → GenResult) (st : CState)
    (h : Reachable g st) : Inv st := by
  induction h with
  | refl => exact inv_initState
  | tail hr hstep ih => exact inv_step g _ _ ih hstep

/-! ### Concrete states used by the claim witnesses -/

/-- State after one resolve request for "a" from a fresh generator:
channel 0 is registered as the only waiter of "a" and the batch ["a"] has
been dispatched. -/
def stReq1 : CState := (requestEmbeddings initState ["a"]).state

/-- State after the dispatch worker handles that batch with the length
generator: "a" is cached and its waiter has been notified. -/
def stHandled1 : CState :=
  (handleGen gLen ["a"] { stReq1 with pending := [] }).getD initState

theorem stHandled1_eq :
    handleGen gLen ["a"] { stReq1 with pending := [] } = some stHandled1 := rfl

theorem stHandled1_reachable : Reachable gLen stHandled1 := by
  have h1 : Step gLen initState stReq1 := Step.request initState ["a"]
  have h2 : Step gLen stReq1 stHandled1 := by
    refine Step.handle stReq1 stHandled1 ["a"] [] [] rfl ?_
    exact stHandled1_eq
  exact Relation.ReflTransGen.tail
    (Relation.ReflTransGen.tail Relation.ReflTransGen.refl h1) h2

/-! ### Claim theorems -/

/-- C7: in every state reachable through the atomic lock-protected sections
of the code — the only instants observable by a concurrent resolve
(`Generate`) call, since every access to the shared maps takes the mutex —
no document is present in both the cache and the waiting map: `handleGen`
publishes a document's result and removes its waiting entry inside one
critical section. -/
theorem C7_cache_waiting_exclusive (g : List Document → GenResult)
    (st : CState) (hreach : Reachable g st) :
    ∀ d e, st.cache d = some e → st.waiting d = none := by
  intro d e hd
  refine (reachable_inv g st hreach).1 d ?_
  rw [hd]
  exact fun hx => Option.noConfusion hx

/-- Witness for C7: in the concrete reachable state where the batch of one
resolve call for "a" has just been published, "a" is cached and absent from
the waiting map. -/
theorem C7_witness :
    stHandled1.cache "a" = some [1] ∧ stHandled1.waiting "a" = none :=
  ⟨rfl, C7_cache_waiting_exclusive gLen stHandled1 stHandled1_reachable "a" [1] rfl⟩

/-- A state with one pre-cached document, used to witness claims about
resolve calls hitting an already-populated cache. -/
def stW : CState :=
  { cache := fun d => if d = "a" then some [1] else none
    waiting := fun _ => none
    chans := fun _ => []
    nextChan := 0
    pending := [] }

/-- State after the spec's first concrete scenario call, resolving
["a", "bb"] with the length generator from a fresh generator. -/
def stAB : CState :=
  ((Generate gLen initState ["a", "bb"]).map Prod.snd).getD initState

/-- C4: once a resolve call for a key has succeeded, the cached result for
that key never changes (across arbitrary concurrent steps), no later
resolve call puts the key into a generation batch again, and every later
resolve call containing the key returns the identical cached result; in
particular, with the generator `generate(keys) = [len(k) for k in keys]`,
resolving ["a", "bb"] returns [1, 2], and a following resolve of
["a", "ccc"] sends only ["ccc"] to the generator and returns [1, 3]
(a one-entry vector [n] stands for the number n). -/
theorem C4_idempotent_cache :
    (∀ (g : List Document → GenResult) (st st' : CState) (k : Document)
       (v : Embedding), Reachable g st → Step g st st' →
       st.cache k = some v → st'.cache k = some v) ∧
    (∀ (st : CState) (docs : List Document) (k : Document),
       st.cache k ≠ none → k ∉ (requestEmbeddings st docs).batch) ∧
    (∀ (h : Document → Embedding) (st : CState) (docs : List Document)
       (k : Document) (v : Embedding) (i : Nat),
       (∀ j, st.nextChan ≤ j → st.chans j = []) →
       (∀ d, st.waiting d = none) →
       st.cache k = some v → docs[i]? = some k →
       ∃ out st2, Generate (gOf h) st docs = some (Except.ok out, st2) ∧
         out[i]? = some v ∧ st2.cache k = some v) ∧
    ((Generate gLen initState ["a", "bb"]).map Prod.fst =
        some (Except.ok [[1], [2]]) ∧
      stAB.cache "a" = some [1] ∧ stAB.cache "bb" = some [2] ∧
      (requestEmbeddings stAB ["a", "ccc"]).batch = ["ccc"] ∧
      (Generate gLen stAB ["a", "ccc"]).map Prod.fst =
        some (Except.ok [[1], [3]])) := by
  refine ⟨?_, ?_, ?_, rfl, rfl, rfl, rfl, rfl⟩
  · intro g st st' k v hreach hstep hk
    obtain ⟨_, hb, _⟩ := reachable_inv g st hreach
    cases hstep with
    | request docs => exact hk
    | handle st' b l1 l2 hpend hhg =>
      obtain ⟨out, hout, hst'⟩ := handleGen_eq_some g b _ st' hhg
      subst hst'
      have hknb : k ∉ b := by
        intro hkb
        have hbp : b ∈ st.pending := by
          rw [hpend]
          exact List.mem_append_right _ (List.mem_cons_self _ _)
        have := (hb b hbp k hkb).1
        rw [hk] at this
        cases this
      show out.1 k = some v
      rw [hgl_cache_other (g b).1 (g b).2 b 0 _ _ _ _ hout k hknb]
      exact hk
  · intro st docs k hk hmem
    rcases reqLoop_dtg_uncached st.cache _ st.waiting st.chans [] k hmem with hm | hm
    · exact absurd hm (List.not_mem_nil k)
    · exact hk hm
  · intro h st docs k v i hfresh hw hk hi
    obtain ⟨st2, heq, hcmem, _, _, _, _⟩ := generate_success_spec h st docs hfresh hw
    refine ⟨docs.map (fun d => (st.cache d).getD (h d)), st2, heq, ?_, ?_⟩
    · rw [List.getElem?_map, hi]
      simp [hk]
    · have hkdocs : k ∈ docs := List.getElem?_mem hi
      rw [hcmem k hkdocs, hk]
      simp

/-- Witness for C4: from a state whose cache already holds [1] for "a", a
resolve call for ["a"] returns the cached value at position 0 and leaves
the cache entry unchanged, without any hypothesis left undischarged. -/
theorem C4_witness :
    ∃ out st2, Generate (gOf (fun d => [(d.length : Int)])) stW ["a"] =
        some (Except.ok out, st2) ∧
      out[0]? = some [1] ∧ st2.cache "a" = some [1] :=
  C4_idempotent_cache.2.2.1 (fun d => [(d.length : Int)]) stW ["a"] "a" [1] 0
    (fun _ _ => rfl) (fun _ => rfl) rfl rfl

/-! ### The mixed-status trace for order preservation

A concrete interleaving with three callers: "a" is already cached, "bb" is
in flight for caller A, and caller B resolves ["a", "bb", "ccc"] — so B's
three positions are cached, in-flight and fresh respectively.  Both
pending batches are then handled and B's collection loop reads its three
channels in input order. -/

/-- Caller A registers for "bb" (in flight) on channel 1. -/
def stTrA : CState := (requestEmbeddings stHandled1 ["bb"]).state

/-- Caller B requests ["a", "bb", "ccc"] on channels 2, 3, 4: "a" is a cache
hit, "bb" joins A's in-flight computation, only "ccc" is dispatched. -/
def stTrB : ReqOut := requestEmbeddings stTrA ["a", "bb", "ccc"]

/-- The worker handles A's batch ["bb"]. -/
def stTrBB : CState :=
  (handleGen gLen ["bb"] { stTrB.state with pending := [["ccc"]] }).getD initState

/-- The worker handles B's batch ["ccc"]. -/
def stTrCCC : CState :=
  (handleGen gLen ["ccc"] { stTrBB with pending := [] }).getD initState

/-- C5: a successful resolve (`Generate`) call returns exactly one result
per input key, positionally aligned with the input order: the output is the
input list mapped position-by-position to its key's value.  The concrete
trace shows the mix of statuses: with "a" cached, "bb" in flight for
another caller and "ccc" fresh, resolving ["a", "bb", "ccc"] yields
[[1], [2], [3]] in input order, and the other caller's waiter is also
served. -/
theorem C5_order_preservation :
    (∀ (h : Document → Embedding) (st : CState) (docs : List Document),
       (∀ i, st.nextChan ≤ i → st.chans i = []) →
       (∀ d, st.waiting d = none) →
       ∃ st2, Generate (gOf h) st docs =
         some (Except.ok (docs.map (fun d => (st.cache d).getD (h d))), st2)) ∧
    (stHandled1.cache "a" = some [1] ∧
      stTrA.waiting "bb" = some [1] ∧
      stTrB.batch = ["ccc"] ∧
      stTrB.chanIds = [2, 3, 4] ∧
      collectLoop stTrCCC.chans stTrB.chanIds [] =
        some (Except.ok [[1], [2], [3]]) ∧
      stTrCCC.chans 1 = [{ embedding := some [2], err := none }]) := by
  refine ⟨?_, rfl, rfl, rfl, rfl, rfl, rfl⟩
  intro h st docs hfresh hw
  obtain ⟨st2, heq, _⟩ := generate_success_spec h st docs hfresh hw
  exact ⟨st2, heq⟩

/-- Witness for C5: the general conjunct applied to a fresh generator and
the input ["a", "bb"], whose mapped result is [[1], [2]]. -/
theorem C5_witness :
    ∃ st2, Generate (gOf (fun d => [(d.length : Int)])) initState ["a", "bb"] =
      some (Except.ok [[1], [2]], st2) :=
  C5_order_preservation.1 (fun d => [(d.length : Int)]) initState ["a", "bb"]
    (fun _ _ => rfl) (fun _ => rfl)

/-- State after resolving ["a", "a"] from a fresh generator. -/
def stAA : CState :=
  ((Generate gLen initState ["a", "a"]).map Prod.snd).getD initState

/-- C10: a document appearing at several positions of one resolve call is
put into the generation batch at most once — the batch of any request is
duplicate-free, so the wrapped generator receives each document once — and
on success every position carrying the same document receives the same
result. -/
theorem C10_duplicate_keys :
    (∀ (st : CState) (docs : List Document),
       (requestEmbeddings st docs).batch.Nodup) ∧
    (∀ (h : Document → Embedding) (st : CState) (docs : List Document)
       (i j : Nat) (out : List Embedding) (st2 : CState),
       (∀ n, st.nextChan ≤ n → st.chans n = []) →
       (∀ d, st.waiting d = none) →
       Generate (gOf h) st docs = some (Except.ok out, st2) →
       docs[i]? = docs[j]? → out[i]? = out[j]?) := by
  constructor
  · intro st docs
    exact (reqLoop_dtg_nodup st.cache _ st.waiting st.chans []
      (fun d hd => absurd hd (List.not_mem_nil d)) List.nodup_nil).1
  · intro h st docs i j out st2 hfresh hw heq hdup
    obtain ⟨st2', heq', _⟩ := generate_success_spec h st docs hfresh hw
    rw [heq] at heq'
    have hout : out = docs.map (fun d => (st.cache d).getD (h d)) := by
      have := Option.some.inj heq'
      have h1 := congrArg Prod.fst this
      simp only at h1
      exact Except.ok.inj h1
    subst hout
    rw [List.getElem?_map, List.getElem?_map, hdup]

/-- Witness for C10: resolving ["a", "a"] dispatches the deduplicated batch
and both positions receive the same result. -/
theorem C10_witness :
    (requestEmbeddings initState ["a", "a"]).batch.Nodup ∧
    (([[1], [1]] : List Embedding)[0]? = ([[1], [1]] : List Embedding)[1]?) :=
  ⟨C10_duplicate_keys.1 initState ["a", "a"],
    C10_duplicate_keys.2 (fun d => [(d.length : Int)]) initState ["a", "a"] 0 1
      [[1], [1]] stAA (fun _ _ => rfl) (fun _ => rfl) rfl rfl⟩

/-! ### Coalescing of N concurrent callers for one key -/

/-- N consecutive single-key registrations for `k`: the mutex serializes the
lock-protected phases of N concurrent `Generate([k])` callers in some
order, which this function replays. -/
def requestN (k : Document) : Nat → CState → CState
  | 0, st => st
  | n + 1, st => requestN k n (requestEmbeddings st [k]).state

theorem request_single_uncached (st : CState) (k : Document)
    (hc : st.cache k = none) (hw : st.waiting k = none) :
    (requestEmbeddings st [k]).batch = [k] ∧
    (requestEmbeddings st [k]).state.cache = st.cache ∧
    (requestEmbeddings st [k]).state.waiting k = some [st.nextChan] ∧
    (requestEmbeddings st [k]).state.chans = st.chans ∧
    (requestEmbeddings st [k]).state.nextChan = st.nextChan + 1 ∧
    (requestEmbeddings st [k]).state.pending = st.pending ++ [[k]] := by
  refine ⟨?_, rfl, ?_, ?_, rfl, ?_⟩
  · show (reqLoop st.cache ((List.range' st.nextChan 1).zip [k])
      st.waiting st.chans []).2.2 = [k]
    simp [List.range', reqLoop, hc, hw]
  · show (reqLoop st.cache ((List.range' st.nextChan 1).zip [k])
      st.waiting st.chans []).1 k = some [st.nextChan]
    simp [List.range', reqLoop, hc, hw, waitAppend, mapSet_eq]
  · show (reqLoop st.cache ((List.range' st.nextChan 1).zip [k])
      st.waiting st.chans []).2.1 = st.chans
    simp [List.range', reqLoop, hc, hw]
  · have hbatch : (reqLoop st.cache ((List.range' st.nextChan 1).zip [k])
        st.waiting st.chans []).2.2 = [k] := by
      simp [List.range', reqLoop, hc, hw]
    show (if (reqLoop st.cache ((List.range' st.nextChan 1).zip [k])
        st.waiting st.chans []).2.2.isEmpty then st.pending
      else st.pending ++ [(reqLoop st.cache ((List.range' st.nextChan 1).zip [k])
        st.waiting st.chans []).2.2]) = st.pending ++ [[k]]
    rw [hbatch]
    simp

theorem request_single_join (st : CState) (k : Document) (l : List Nat)
    (hc : st.cache k = none) (hw : st.waiting k = some l) :
    (requestEmbeddings st [k]).batch = [] ∧
    (requestEmbeddings st [k]).state.cache = st.cache ∧
    (requestEmbeddings st [k]).state.waiting k = some (l ++ [st.nextChan]) ∧
    (requestEmbeddings st [k]).state.chans = st.chans ∧
    (requestEmbeddings st [k]).state.nextChan = st.nextChan + 1 ∧
    (requestEmbeddings st [k]).state.pending = st.pending := by
  refine ⟨?_, rfl, ?_, ?_, rfl, ?_⟩
  · show (reqLoop st.cache ((List.range' st.nextChan 1).zip [k])
      st.waiting st.chans []).2.2 = []
    simp [List.range', reqLoop, hc, hw]
  · show (reqLoop st.cache ((List.range' st.nextChan 1).zip [k])
      st.waiting st.chans []).1 k = some (l ++ [st.nextChan])
    simp [List.range', reqLoop, hc, hw, waitAppend, mapSet_eq]
  · show (reqLoop st.cache ((List.range' st.nextChan 1).zip [k])
      st.waiting st.chans []).2.1 = st.chans
    simp [List.range', reqLoop, hc, hw]
  · have hbatch : (reqLoop st.cache ((List.range' st.nextChan 1).zip [k])
        st.waiting st.chans []).2.2 = [] := by
      simp [List.range', reqLoop, hc, hw]
    show (if (reqLoop st.cache ((List.range' st.nextChan 1).zip [k])
        st.waiting st.chans []).2.2.isEmpty then st.pending
      else st.pending ++ [(reqLoop st.cache ((List.range' st.nextChan 1).zip [k])
        st.waiting st.chans []).2.2]) = st.pending
    rw [hbatch]
    simp

theorem requestN_join_spec (k : Document) :
    ∀ (n : Nat) (st : CState) (l : List Nat),
      st.cache k = none → st.waiting k = some l →
      (requestN k n st).cache = st.cache ∧
      (requestN k n st).waiting k = some (l ++ List.range' st.nextChan n) ∧
      (requestN k n st).chans = st.chans ∧
      (requestN k n st).nextChan = st.nextChan + n ∧
      (requestN k n st).pending = st.pending := by
  intro n
  induction n with
  | zero =>
    intro st l hc hw
    exact ⟨rfl, by simpa using hw, rfl, rfl, rfl⟩
  | succ n ih =>
    intro st l hc hw
    obtain ⟨hb1, hc1, hw1, hch1, hn1, hp1⟩ := request_single_join st k l hc hw
    have hc1k : (requestEmbeddings st [k]).state.cache k = none := by
      rw [hc1]; exact hc
    obtain ⟨ihc, ihw, ihch, ihn, ihp⟩ :=
      ih (requestEmbeddings st [k]).state (l ++ [st.nextChan]) hc1k hw1
    have hrange : (l ++ [st.nextChan]) ++
        List.range' (requestEmbeddings st [k]).state.nextChan n =
        l ++ List.range' st.nextChan (n + 1) := by
      rw [hn1, List.range'_succ, List.append_assoc]
      rfl
    refine ⟨?_, ?_, ?_, ?_, ?_⟩
    · show (requestN k n (requestEmbeddings st [k]).state).cache = st.cache
      rw [ihc, hc1]
    · show (requestN k n (requestEmbeddings st [k]).state).waiting k = _
      rw [ihw, hrange]
    · show (requestN k n (requestEmbeddings st [k]).state).chans = st.chans
      rw [ihch, hch1]
    · show (requestN k n (requestEmbeddings st [k]).state).nextChan = st.nextChan + (n + 1)
      rw [ihn, hn1]
      omega
    · show (requestN k n (requestEmbeddings st [k]).state).pending = st.pending
      rw [ihp, hp1]

/-- C1: for every key k, at most one generation is ever in flight for k.
If N concurrent `Generate([k])` callers find k uncached and not in flight,
their serialized registrations dispatch exactly one batch containing k —
the batch [k] of the first caller; all N callers are registered as waiters
of k, and when the worker completes that single generator invocation every
one of the N waiter channels receives the same result.  Moreover a key
already present in the waiting map is never added to a new generation
batch, whatever the requested document list. -/
theorem C1_coalescing :
    (∀ (g : List Document → GenResult) (st0 : CState) (k : Document)
       (v : Embedding) (N : Nat), 1 ≤ N →
       st0.cache k = none → st0.waiting k = none →
       (∀ b ∈ st0.pending, k ∉ b) →
       (∀ i, st0.nextChan ≤ i → st0.chans i = []) →
       g [k] = ([v], none) →
       (requestN k N st0).pending = st0.pending ++ [[k]] ∧
       (requestN k N st0).pending.countP (fun b => decide (k ∈ b)) = 1 ∧
       (requestN k N st0).waiting k = some (List.range' st0.nextChan N) ∧
       ∃ st2, handleGen g [k] { requestN k N st0 with pending := st0.pending } =
           some st2 ∧
         ∀ ci ∈ List.range' st0.nextChan N,
           st2.chans ci = [{ embedding := some v, err := none }]) ∧
    (∀ (st : CState) (docs : List Document) (k : Document),
       st.waiting k ≠ none → k ∉ (requestEmbeddings st docs).batch) := by
  constructor
  · intro g st0 k v N hN hc hw hp hfresh hg
    obtain ⟨m, rfl⟩ : ∃ m, N = m + 1 := ⟨N - 1, by omega⟩
    obtain ⟨hb1, hc1, hw1, hch1, hn1, hp1⟩ := request_single_uncached st0 k hc hw
    have hc1k : (requestEmbeddings st0 [k]).state.cache k = none := by
      rw [hc1]; exact hc
    obtain ⟨ihc, ihw, ihch, ihn, ihp⟩ :=
      requestN_join_spec k m (requestEmbeddings st0 [k]).state [st0.nextChan] hc1k hw1
    have hreqN_def : requestN k (m + 1) st0 =
        requestN k m (requestEmbeddings st0 [k]).state := rfl
    have hpendN : (requestN k (m + 1) st0).pending = st0.pending ++ [[k]] := by
      rw [hreqN_def, ihp, hp1]
    have hwN : (requestN k (m + 1) st0).waiting k =
        some (List.range' st0.nextChan (m + 1)) := by
      rw [hreqN_def, ihw, hn1, List.singleton_append, ← List.range'_succ]
    have hchN : (requestN k (m + 1) st0).chans = st0.chans := by
      rw [hreqN_def, ihch, hch1]
    have hcN : (requestN k (m + 1) st0).cache = st0.cache := by
      rw [hreqN_def, ihc, hc1]
    refine ⟨hpendN, ?_, hwN, ?_⟩
    · rw [hpendN, List.countP_append]
      have hzero : st0.pending.countP (fun b => decide (k ∈ b)) = 0 := by
        rw [List.countP_eq_zero]
        intro b hb
        simp only [decide_eq_true_eq]
        exact hp b hb
      rw [hzero]
      simp [List.countP_cons]
    · have hloop : handleGenLoop [v] none [k] 0
          (requestN k (m + 1) st0).cache
          (requestN k (m + 1) st0).waiting
          (requestN k (m + 1) st0).chans =
          some (mapSet (requestN k (m + 1) st0).cache k v,
            mapDel (requestN k (m + 1) st0).waiting k,
            sendAll (requestN k (m + 1) st0).chans
              (List.range' st0.nextChan (m + 1)) { embedding := some v, err := none }) := by
        simp [handleGenLoop, hwN]
      refine ⟨{ requestN k (m + 1) st0 with
                  pending := st0.pending,
                  cache := mapSet (requestN k (m + 1) st0).cache k v,
                  waiting := mapDel (requestN k (m + 1) st0).waiting k,
                  chans := sendAll (requestN k (m + 1) st0).chans
                    (List.range' st0.nextChan (m + 1))
                    { embedding := some v, err := none } }, ?_, ?_⟩
      · rw [handleGen_def]
        have hg1 : (g [k]).1 = [v] := by rw [hg]
        have hg2 : (g [k]).2 = none := by rw [hg]
        rw [hg1, hg2]
        have hmid : ({ requestN k (m + 1) st0 with pending := st0.pending } : CState).cache =
            (requestN k (m + 1) st0).cache := rfl
        rw [hloop]
      · intro ci hci
        have hcieq : sendAll (requestN k (m + 1) st0).chans
            (List.range' st0.nextChan (m + 1))
            { embedding := some v, err := none } ci =
            (requestN k (m + 1) st0).chans ci ++ [{ embedding := some v, err := none }] :=
          sendAll_nodup_mem _ _ _ ci
            (List.nodup_range' st0.nextChan (m + 1) 1 one_pos) hci
        have hcige : st0.nextChan ≤ ci := (List.mem_range'_1.mp hci).1
        show sendAll (requestN k (m + 1) st0).chans _ _ ci = _
        rw [hcieq, hchN, hfresh ci hcige]
        simp
  · intro st docs k hk hmem
    have := (reqLoop_dtg_of_waiting st.cache _ st.waiting st.chans [] k hk).mp hmem
    exact absurd this (List.not_mem_nil k)

/-- Witness for C1: two serialized callers for the uncached key "a" from a
fresh generator dispatch exactly the one batch ["a"], and after the worker
handles it both waiter channels hold the same single result. -/
theorem C1_witness :
    (requestN "a" 2 initState).pending = [["a"]] ∧
    (requestN "a" 2 initState).waiting "a" = some (List.range' 0 2) ∧
    ∃ st2, handleGen gLen ["a"] { requestN "a" 2 initState with pending := [] } =
        some st2 ∧
      ∀ ci ∈ List.range' 0 2,
        st2.chans ci = [{ embedding := some [1], err := none }] := by
  have := C1_coalescing.1 gLen initState "a" [1] 2 (by omega) rfl rfl
    (fun b hb => absurd hb (List.not_mem_nil b)) (fun _ _ => rfl) rfl
  exact ⟨this.1, this.2.2.1, this.2.2.2⟩

/-- C9 counterexample: a resolve (`Generate`) call with zero keys does not
fail — there is no InvalidInputError anywhere in the component — it
returns the empty result list with no error, leaving the state untouched. -/
theorem C9_counterexample :
    Generate gLen initState [] = some (Except.ok [], initState) := rfl

/-- C9 amended: a resolve (`Generate`) call supplied with zero keys
performs no validation and cannot fail: for every generator and every
state it returns the empty result sequence with no error and leaves the
shared state unchanged (the mutex is taken and released, but the cache,
the waiting map and the dispatch queue are not modified, and no batch is
dispatched). -/
theorem C9_empty_input (g : List Document → GenResult) (st : CState) :
    Generate g st [] = some (Except.ok [], st) := rfl

/-- C8: `handleGen` is not total on the generator's error outcomes.  For
every non-empty batch, if the generator returns the conventional
`(nil, err)` pair, the unconditional cache write `c.cache[doc] =
embeddings[i]` indexes the empty embeddings slice out of bounds before the
error-delivery branch can run — the Go code panics, modelled by `none`. -/
theorem C8_error_branch_panics (g : List Document → GenResult)
    (batch : List Document) (st : CState) (d0 : Document)
    (rest : List Document) (er : GenError) (hbatch : batch = d0 :: rest)
    (hg : g batch = ([], some er)) :
    handleGen g batch st = none := by
  subst hbatch
  rw [handleGen_def]
  have hg1 : (g (d0 :: rest)).1 = [] := by rw [hg]
  have hg2 : (g (d0 :: rest)).2 = some er := by rw [hg]
  rw [hg1, hg2]
  simp [handleGenLoop]

/-- Witness for C8: the panic at the concrete failing input — batch ["a"],
generator returning (nil, error). -/
theorem C8_witness :
    handleGen (gFail "generator failed") ["a"] initState = none :=
  C8_error_branch_panics (gFail "generator failed") ["a"] initState "a" []
    (GenError.err "generator failed") rfl rfl

/-- State after one resolve request for ["a", "b"] from a fresh
generator: channels 0 and 1 are registered as waiters and the batch
["a", "b"] is dispatched. -/
def rAB : ReqOut := requestEmbeddings initState ["a", "b"]

/-- C2: when the generator fails for a batch, the code does not deliver the
error to the batch's waiters.  With both keys of the batch ["a", "b"]
having registered waiters, the worker's loop panics on its first index
into the nil embeddings slice, so no waiter of either key receives
anything, and the whole `Generate` call never returns (modelled by
`none`) — instead of every waiter receiving the error and the caller
getting a single error return. -/
theorem C2_failure_not_fanned_out :
    rAB.batch = ["a", "b"] ∧
    rAB.state.waiting "a" = some [0] ∧
    rAB.state.waiting "b" = some [1] ∧
    handleGen (gFail "boom") ["a", "b"] { rAB.state with pending := [] } = none ∧
    Generate (gFail "boom") initState ["a", "b"] = none :=
  ⟨rfl, rfl, rfl, rfl, rfl⟩

/-- A generator that reports failure while also returning one embedding per
document (the downstream contract does not forbid this: a non-nil error is
just supposed to invalidate the batch). -/
def gErrWithResults : List Document → GenResult :=
  fun ds => (ds.map (fun _ => ([7] : Embedding)), some (GenError.err "late failure"))

/-- C3: the cache is not left untouched by a failed batch.  With the
conventional `(nil, err)` generator result the worker panics (first
conjunct), so the promised retry-on-next-resolve can never happen; and if
a failing generator does return embeddings alongside its error, the
unconditional `c.cache[doc] = embeddings[i]` write populates the cache for
the failed keys even while delivering the error to their waiters (second
and third conjuncts) — contradicting absence-as-the-only-failure-record
in both scenarios. -/
theorem C3_cache_written_on_failure :
    Generate (gFail "boom") initState ["a"] = none ∧
    (handleGen gErrWithResults ["a"] { stReq1 with pending := [] }).map
        (fun s => s.cache "a") = some (some [7]) ∧
    (handleGen gErrWithResults ["a"] { stReq1 with pending := [] }).map
        (fun s => s.chans 0) =
      some [{ embedding := none,
              err := some (GenError.wrapGenerating (GenError.err "late failure")) }] :=
  ⟨rfl, rfl, rfl⟩

/-- C6: a registered waiter can be left without any terminal notification.
After one resolve request for "a", channel 0 is the registered waiter of
"a" and has received nothing; when the generator fails with the
conventional `(nil, err)` result the worker panics before sending, so the
waiter never receives its exactly-one notification. -/
theorem C6_waiter_left_unnotified :
    stReq1.waiting "a" = some [0] ∧
    stReq1.chans 0 = [] ∧
    handleGen (gFail "gen error") ["a"] { stReq1 with pending := [] } = none :=
  ⟨rfl, rfl, rfl⟩

end ChromaGo.Cached
